import Mathlib

/-!
Verification of the goban board-state engine (`src/pieces/goban.rs`,
`src/pieces/zobrist.rs`): a Go board with a grid of colors, two occupancy
bitsets, and an incrementally maintained Zobrist hash.

Rust `Vec` indexing panics out of range; we model a panicking computation
with `Option` (`Option.none` = panic).  `push` returns `Result<_, String>`
in Rust and can also panic inside; we model its outcome with the three-way
`PushOut`.  Machine integers (`u32`, `u64`) are `Nat` with explicit
reduction modulo 2^32 / 2^64 at every operation that can wrap.
-/

set_option maxRecDepth 40000

/-- Tri-state color of an intersection.  Modelled from the spec: the type
itself lives in `pieces/stones.rs`, which is not among the provided sources
("tri-state value — `None` (empty), `Black`, `White`"). -/
inductive Color where
  | none
  | black
  | white
deriving DecidableEq, Repr

/-- Modelled from the spec: the numeric discriminant of `Color` (the Rust
`color as u8` cast).  `pieces/stones.rs` is not among the provided sources;
the assignment Black = 1, White = 2 is forced by the Zobrist lookup in
`zobrist.rs`, which indexes a 2-entry row with `color as u8 - 1` and must be
in bounds for both non-empty colors, and `None` takes the remaining default
discriminant 0. -/
def Color.discr : Color → Nat
  | Color.none => 0
  | Color.black => 1
  | Color.white => 2

/-- Modelled from the spec: the traversal-order selector of
`pieces/util/coord.rs`, which is not among the provided sources
("row-major vs. an alternate traversal"). -/
inductive Order where
  | rowMajor
  | columnMajor
deriving DecidableEq, Repr

/-- Modelled from the spec: the Coordinate Mapper of `pieces/util/coord.rs`,
which is not among the provided sources; it is "parameterized at
construction by (width, height, order)". -/
structure CoordUtil where
  nRows : Nat
  nCols : Nat
  order : Order
deriving DecidableEq, Repr

/-- Modelled from the spec: `CoordUtil::new`, defaulting to row-major. -/
def CoordUtil.new (nRows nCols : Nat) : CoordUtil :=
  ⟨nRows, nCols, Order.rowMajor⟩

/-- Modelled from the spec: `CoordUtil::new_order`. -/
def CoordUtil.newOrder (nRows nCols : Nat) (o : Order) : CoordUtil :=
  ⟨nRows, nCols, o⟩

/-- Modelled from the spec: `CoordUtil::to`; default order is row-major,
"index = row * width + column". -/
def CoordUtil.toIndex (cu : CoordUtil) (p : Nat × Nat) : Nat :=
  match cu.order with
  | Order.rowMajor => p.1 * cu.nCols + p.2
  | Order.columnMajor => p.2 * cu.nRows + p.1

/-- Modelled from the spec: `CoordUtil::from`, the inverse mapping. -/
def CoordUtil.fromIndex (cu : CoordUtil) (i : Nat) : Nat × Nat :=
  match cu.order with
  | Order.rowMajor => (i / cu.nCols, i % cu.nCols)
  | Order.columnMajor => (i % cu.nRows, i / cu.nRows)

/-- Rust slice read `l[i]` as a total function: `Option.none` models the
out-of-range panic. -/
def getAt : List α → Nat → Option α
  | [], _ => Option.none
  | a :: _, 0 => some a
  | _ :: l, n + 1 => getAt l n

/-- Rust slice write `l[i] = x`: `Option.none` models the out-of-range
panic. -/
def setAt : List α → Nat → α → Option (List α)
  | [], _, _ => Option.none
  | _ :: l, 0, x => some (x :: l)
  | a :: l, n + 1, x => (setAt l n x).map (fun l' => a :: l')

/-- Truncation to 32 bits (`u32` wrapping). -/
def u32 (n : Nat) : Nat := n % 4294967296

/-- Truncation to 64 bits (`u64` wrapping). -/
def u64 (n : Nat) : Nat := n % 18446744073709551616

/-- Rust `u32::rotate_right`. -/
def rotr32 (x r : Nat) : Nat :=
  let r := r % 32
  u32 ((x >>> r) ||| (x <<< (32 - r)))

/-- One step of the PCG32-style generator used by `rand_core`'s default
`SeedableRng::seed_from_u64` to expand the fixed seed constant into seed
words; returns (new LCG state, 32-bit output).  This is the dependency
`rand` of the crate, embedded here because `ZobristTable::new` calls
`XorShiftRng::seed_from_u64`. -/
def pcgNext (state : Nat) : Nat × Nat :=
  let s := u64 (state * 6364136223846793005 + 11634580027462260723)
  let xorshifted := u32 (((s >>> 18) ^^^ s) >>> 27)
  let rot := s >>> 59
  (s, rotr32 xorshifted rot)

/-- State of the `rand_xorshift::XorShiftRng` generator: four `u32` words. -/
structure XSState where
  x : Nat
  y : Nat
  z : Nat
  w : Nat
deriving DecidableEq, Repr

/-- Rust `XorShiftRng::from_seed` composed with `seed_from_u64`: the four seed
words are produced by the PCG expansion of the `u64` seed, and an all-zero
seed is replaced by the crate's fixed fallback word `0xBAD5EED`. -/
def xsSeedFromU64 (seed : Nat) : XSState :=
  let (s1, w1) := pcgNext (u64 seed)
  let (s2, w2) := pcgNext s1
  let (s3, w3) := pcgNext s2
  let (_, w4) := pcgNext s3
  if w1 = 0 && w2 = 0 && w3 = 0 && w4 = 0 then
    ⟨195911405, 195911405, 195911405, 195911405⟩
  else
    ⟨w1, w2, w3, w4⟩

/-- Rust `XorShiftRng::next_u32`: the classic xorshift128 step. -/
def xsNextU32 (s : XSState) : Nat × XSState :=
  let t := u32 (s.x ^^^ u32 (s.x <<< 11))
  let w' := u32 (s.w ^^^ (s.w >>> 19) ^^^ t ^^^ (t >>> 8))
  (w', ⟨s.y, s.z, s.w, w'⟩)

/-- Rust `XorShiftRng::next_u64`, via two `next_u32` calls (low word first). -/
def xsNextU64 (s : XSState) : Nat × XSState :=
  let (lo, s1) := xsNextU32 s
  let (hi, s2) := xsNextU32 s1
  ((hi <<< 32) ||| lo, s2)

/-- Constant `SEED` from `zobrist.rs`, 172_147_124. -/
def SEED : Nat := 172147124

/-- The Zobrist key table: `hashes` is allocated as `19*19` rows of 2 keys,
`n` is the requested dimension. -/
structure ZobristTable where
  hashes : List (List Nat)
  n : Nat
deriving DecidableEq, Repr

/-- The nested assignment `hashes[i][j] = v`: row lookup, row update, row
write-back; `Option.none` models the out-of-range panic of either index. -/
def setAt2 (h : List (List Nat)) (i j : Nat) (v : Nat) : Option (List (List Nat)) :=
  match getAt h i with
  | Option.none => Option.none
  | some row =>
    match setAt row j v with
    | Option.none => Option.none
    | some row' => setAt h i row'

/-- The fill loop of `ZobristTable::new`: for each index `i` in `todo` (in
order), draw two `u64`s and store them at `hashes[i][0]` and `hashes[i][1]`
(the inner `for j in 0..2` unrolled); threads the generator state. -/
def zfGo : List Nat → XSState → List (List Nat) → Option (List (List Nat) × XSState)
  | [], s, h => some (h, s)
  | i :: rest, s, h =>
    match setAt2 h i 0 (xsNextU64 s).1 with
    | Option.none => Option.none
    | some h1 =>
      match setAt2 h1 i 1 (xsNextU64 (xsNextU64 s).2).1 with
      | Option.none => Option.none
      | some h2 => zfGo rest (xsNextU64 (xsNextU64 s).2).2 h2

/-- Function `ZobristTable::new(n)`: seed the generator with the fixed constant,
allocate `19*19` rows of two zero keys, then run the fill loop over
`0..n*n`; `Option.none` models the panic when the loop indexes past the
fixed allocation. -/
def ZobristTable.new (n : Nat) : Option ZobristTable :=
  (zfGo (List.range (n * n)) (xsSeedFromU64 SEED)
      (List.replicate (19 * 19) (List.replicate 2 0))).map
    (fun p => ⟨p.1, n⟩)

/-- The `Index<(Point, Color)>` impl of `ZobristTable`, reading
row `x.0 * n + x.1`, entry `(color as u8 - 1) as usize`.  For `Color::None` the
`u8` subtraction wraps to 255 (in a debug build it panics right at the
subtraction); either way the access fails, modelled as `Option.none`. -/
def zobristLookup (t : ZobristTable) (p : Nat × Nat) (c : Color) : Option Nat :=
  match getAt t.hashes (p.1 * t.n + p.2) with
  | Option.none => Option.none
  | some row => getAt row ((c.discr + 255) % 256)

/-- The process-wide singleton table of dimension 19 (`lazy_static!`
`ZOBRIST`, referenced from `goban.rs` as `ZOBRIST19`); its construction
succeeds, see `zobrist19_eq`. -/
@[irreducible] def ZOBRIST19 : ZobristTable :=
  (ZobristTable.new 19).getD ⟨[], 19⟩

/-- The `Goban` struct: grid, the two occupancy bitsets, size, coordinate
mapper, (reference to the) Zobrist table, and the running hash. -/
structure Goban where
  tab : List Color
  b_stones : List Bool
  w_stones : List Bool
  size : Nat
  coordUtil : CoordUtil
  zobrist : ZobristTable
  hash : Nat
deriving DecidableEq, Repr

/-- Constructor `Goban::new(size)`: all cells `None`, bitsets all false, hash 0,
row-major mapper, the shared dimension-19 table. -/
def Goban.new (size : Nat) : Goban :=
  { tab := List.replicate (size * size) Color.none
    b_stones := List.replicate (size * size) false
    w_stones := List.replicate (size * size) false
    size := size
    coordUtil := CoordUtil.new size size
    zobrist := ZOBRIST19
    hash := 0 }

/-- Predicate `Goban::coord_valid`: both components strictly below `size`. -/
def Goban.coordValid (g : Goban) (p : Nat × Nat) : Bool :=
  decide (p.1 < g.size) && decide (p.2 < g.size)

/-- Outcome of `Goban::push`: success with the mutated board, the
`Err(String)` return (carrying the untouched board), or a panic somewhere
inside the body. -/
inductive PushOut where
  | ok (g : Goban)
  | err (g : Goban) (msg : String)
  | panicked
deriving DecidableEq, Repr

/-- The board state after a `push` call, when the call did not panic. -/
def PushOut.state : PushOut → Option Goban
  | PushOut.ok g => some g
  | PushOut.err g _ => some g
  | PushOut.panicked => Option.none

/-- The formatted error message the out-of-bounds branch of `push` returns. -/
def oobMsg (p : Nat × Nat) : String :=
  "the point :(" ++ toString p.1 ++ "," ++ toString p.2 ++ ") are outside the goban"

/-- Method `Goban::push(point, color)`, step for step: bounds check (else `Err`),
compute the linear index, update the occupancy bitset(s) for `color`
(clearing both for `None`), XOR the hash with the key of the new color — or,
when clearing, with the key of the color currently at the intersection —
then overwrite the grid cell.  Every slice access is bounds-checked;
a failed one yields `PushOut.panicked`. -/
def Goban.push (g : Goban) (point : Nat × Nat) (color : Color) : PushOut :=
  if g.coordValid point then
    let i := g.coordUtil.toIndex point
    let bw : Option (List Bool × List Bool) :=
      match color with
      | Color.black => (setAt g.b_stones i true).map (fun b => (b, g.w_stones))
      | Color.white => (setAt g.w_stones i true).map (fun w => (g.b_stones, w))
      | Color.none =>
        match setAt g.b_stones i false, setAt g.w_stones i false with
        | some b, some w => some (b, w)
        | _, _ => Option.none
    match bw with
    | Option.none => PushOut.panicked
    | some (b, w) =>
      let keyOpt : Option Nat :=
        if color = Color.none then
          match getAt g.tab i with
          | Option.none => Option.none
          | some old => zobristLookup g.zobrist point old
        else
          zobristLookup g.zobrist point color
      match keyOpt with
      | Option.none => PushOut.panicked
      | some k =>
        match setAt g.tab i color with
        | Option.none => PushOut.panicked
        | some tab' =>
          PushOut.ok { g with
            tab := tab'
            b_stones := b
            w_stones := w
            hash := g.hash ^^^ k }
  else
    PushOut.err g (oobMsg point)

/-- Convenience extractor for building concrete boards: the board a
successful `push` returns (the input board if the push did not succeed). -/
def pushOk (g : Goban) (p : Nat × Nat) (c : Color) : Goban :=
  match g.push p c with
  | PushOut.ok g' => g'
  | _ => g

/-- The `PartialEq` impl of `Goban`: `other.hash == self.hash`. -/
def gobanBEq (a b : Goban) : Bool :=
  b.hash == a.hash

/-- Modelled from the spec: the rendering symbol constants of
`pieces/stones.rs` (not among the provided sources); "one symbol for
empty/black/white" — the identity of the glyphs is immaterial here. -/
def EMPTY_STONE : Char := '.'

/-- Modelled from the spec: the black rendering symbol of
`pieces/stones.rs` (not among the provided sources). -/
def BLACK_STONE : Char := 'X'

/-- Modelled from the spec: the white rendering symbol of
`pieces/stones.rs` (not among the provided sources). -/
def WHITE_STONE : Char := 'O'

/-- The symbol pushed for one cell read `self[(i, j)]` in the rendering
loops; `Option.none` models the indexing panic. -/
def renderCell (g : Goban) (i j : Nat) : Option Char :=
  match getAt g.tab (g.coordUtil.toIndex (i, j)) with
  | some Color.white => some WHITE_STONE
  | some Color.black => some BLACK_STONE
  | some Color.none => some EMPTY_STONE
  | Option.none => Option.none

/-- The inner `for j in 0..size` loop of the rendering functions: the chars
of row `i`, first `jEnd` columns. -/
def renderRowGo (g : Goban) (i : Nat) : Nat → Option (List Char)
  | 0 => some []
  | j + 1 =>
    match renderRowGo g i j, renderCell g i j with
    | some acc, some ch => some (acc ++ [ch])
    | _, _ => Option.none

/-- The outer `for i in 0..size` loop of the rendering functions: rows
`0..iEnd`, each followed by a newline. -/
def renderGo (g : Goban) : Nat → Option (List Char)
  | 0 => some []
  | i + 1 =>
    match renderGo g i, renderRowGo g i g.size with
    | some acc, some row => some (acc ++ row ++ ['\n'])
    | _, _ => Option.none

/-- Method `Goban::raw_string`. -/
def Goban.rawString (g : Goban) : Option String :=
  (renderGo g g.size).map (fun cs => String.mk cs)

/-- Method `Goban::pretty_string` — its body is character for character the same
loop as `raw_string`. -/
def Goban.prettyString (g : Goban) : Option String :=
  (renderGo g g.size).map (fun cs => String.mk cs)

/-- The `Display` impl: `write!(f, "{}", self.pretty_string())`. -/
def Goban.displayString (g : Goban) : Option String :=
  g.prettyString

/-- Specification-side XOR fold: the XOR of `f 0, ..., f (n-1)`. -/
def xorRange (f : Nat → Nat) : Nat → Nat
  | 0 => 0
  | n + 1 => xorRange f n ^^^ f n

/-- Specification-side contribution of linear index `i` to a from-scratch
hash recomputation: 0 for an empty (or out-of-range) cell, otherwise the
Zobrist key of (coordinate of `i`, color at `i`). -/
def cellContrib (zt : ZobristTable) (cu : CoordUtil) (tab : List Color) (i : Nat) : Nat :=
  match getAt tab i with
  | some c => if c = Color.none then 0 else (zobristLookup zt (cu.fromIndex i) c).getD 0
  | Option.none => 0

/-- Specification-side from-scratch recomputation of the hash: the XOR, over
every linear index with a non-empty cell, of the Zobrist key for
(coordinate of the index, color at the index). -/
def Goban.recomputeHash (g : Goban) : Nat :=
  xorRange (cellContrib g.zobrist g.coordUtil g.tab) (g.size * g.size)

/-- Structural well-formedness, as established by `Goban::new` and preserved
by `push`: all per-cell structures have length size², the mapper is the
row-major one of this size, and the table is the process-wide singleton. -/
def Goban.WF (g : Goban) : Prop :=
  g.tab.length = g.size * g.size ∧
  g.b_stones.length = g.size * g.size ∧
  g.w_stones.length = g.size * g.size ∧
  g.coordUtil = CoordUtil.new g.size g.size ∧
  g.zobrist = ZOBRIST19

/-- The bitset-consistency invariant of the spec: at every linear index,
the cell is Black iff the black bit is set, White iff the white bit is set,
and empty iff both bits are clear. -/
def Goban.Consistent (g : Goban) : Prop := ∀ i, i < g.tab.length →
  ((getAt g.tab i = some Color.black ↔ getAt g.b_stones i = some true) ∧
   (getAt g.tab i = some Color.white ↔ getAt g.w_stones i = some true) ∧
   (getAt g.tab i = some Color.none ↔
     (getAt g.b_stones i = some false ∧ getAt g.w_stones i = some false)))

/-- Reachability by any sequence of successful `push` calls. -/
inductive PushReach : Goban → Goban → Prop where
  | refl (g : Goban) : PushReach g g
  | step {g₁ g₂ g₃ : Goban} (p : Nat × Nat) (c : Color) :
      PushReach g₁ g₂ → g₂.push p c = PushOut.ok g₃ → PushReach g₁ g₃

/-- Reachability by successful `push` calls none of which writes a
non-empty color over the *other* non-empty color (the exception the claim
carves out: each push clears, fills an empty cell, or rewrites the same
color). -/
inductive NoRecolorReach : Goban → Goban → Prop where
  | refl (g : Goban) : NoRecolorReach g g
  | step {g₁ g₂ g₃ : Goban} (p : Nat × Nat) (c : Color) :
      NoRecolorReach g₁ g₂ → g₂.push p c = PushOut.ok g₃ →
      (c = Color.none ∨ getAt g₂.tab (g₂.coordUtil.toIndex p) = some Color.none ∨
        getAt g₂.tab (g₂.coordUtil.toIndex p) = some c) →
      NoRecolorReach g₁ g₃

/-- Reachability by successful `push` calls none of which writes a
non-empty color onto an already non-empty intersection (every push either
clears or fills an empty cell). -/
inductive CleanReach : Goban → Goban → Prop where
  | refl (g : Goban) : CleanReach g g
  | step {g₁ g₂ g₃ : Goban} (p : Nat × Nat) (c : Color) :
      CleanReach g₁ g₂ → g₂.push p c = PushOut.ok g₃ →
      (getAt g₂.tab (g₂.coordUtil.toIndex p) = some Color.none ∨ c = Color.none) →
      CleanReach g₁ g₃

/-- The Zobrist key for ((0,0), Black): the first output of the seeded
generator (row 0 is filled first, Black is entry 0). -/
def zKey00B : Nat := (xsNextU64 (xsSeedFromU64 SEED)).1

/-- The Zobrist key for ((0,0), White): the second output of the seeded
generator. -/
def zKey00W : Nat := (xsNextU64 (xsNextU64 (xsSeedFromU64 SEED)).2).1

/-- Concrete board: `new(1)` after `push((0,0), Black)`. -/
def oneBlack1 : Goban :=
  ⟨[Color.black], [true], [false], 1, CoordUtil.new 1 1, ZOBRIST19, 0 ^^^ zKey00B⟩

/-- Concrete board: `new(1)` after `push((0,0), Black)` twice. -/
def twoBlack1 : Goban :=
  ⟨[Color.black], [true], [false], 1, CoordUtil.new 1 1, ZOBRIST19,
    0 ^^^ zKey00B ^^^ zKey00B⟩

/-- Concrete board: `new(1)` after `push((0,0), White)`. -/
def oneWhite1 : Goban :=
  ⟨[Color.white], [false], [true], 1, CoordUtil.new 1 1, ZOBRIST19, 0 ^^^ zKey00W⟩

/-- Concrete board: `new(1)` after `push((0,0), White)` then
`push((0,0), Black)` — note the white bit is still set. -/
def whiteThenBlack1 : Goban :=
  ⟨[Color.black], [true], [true], 1, CoordUtil.new 1 1, ZOBRIST19,
    0 ^^^ zKey00W ^^^ zKey00B⟩

/-- Concrete board: `whiteThenBlack1` after `push((0,0), None)`. -/
def whiteBlackCleared1 : Goban :=
  ⟨[Color.none], [false], [false], 1, CoordUtil.new 1 1, ZOBRIST19,
    0 ^^^ zKey00W ^^^ zKey00B ^^^ zKey00B⟩

/-- Concrete board: `new(2)` after `push((0,0), Black)`. -/
def oneBlack2 : Goban :=
  ⟨[Color.black, Color.none, Color.none, Color.none],
    [true, false, false, false], [false, false, false, false], 2,
    CoordUtil.new 2 2, ZOBRIST19, 0 ^^^ zKey00B⟩

/-- Concrete board: `oneBlack2` after `push((0,0), None)`. -/
def blackCleared2 : Goban :=
  ⟨[Color.none, Color.none, Color.none, Color.none],
    [false, false, false, false], [false, false, false, false], 2,
    CoordUtil.new 2 2, ZOBRIST19, 0 ^^^ zKey00B ^^^ zKey00B⟩

/-- The dimension-1 Zobrist table, for the determinism witness. -/
def ztOne : ZobristTable :=
  (ZobristTable.new 1).getD ⟨[], 1⟩

/-- Fuel-based floor of the base-2 logarithm (0 for n ≤ 1); structural
recursion on the fuel so that concrete instances evaluate in the kernel. -/
def log2F : Nat → Nat → Nat
  | 0, _ => 0
  | fuel + 1, n => if 2 ≤ n then log2F fuel (n / 2) + 1 else 0

/-- Floor of the base-2 logarithm; fuel n suffices since n halves each
step. -/
def nlog2 (n : Nat) : Nat := log2F n n

/-- Fuel-based integer square root by the digit recursion
isqrt n = adjust (2 * isqrt (n / 4)); structural recursion on the fuel. -/
def isqrtF : Nat → Nat → Nat
  | 0, _ => 0
  | fuel + 1, n =>
    if n = 0 then 0
    else
      let r := 2 * isqrtF fuel (n / 4)
      if (r + 1) * (r + 1) ≤ n then r + 1 else r

/-- Integer square root (floor); fuel n suffices since n quarters each
step. -/
def isqrt (n : Nat) : Nat := isqrtF n n

/-- Round the real √(p/q) to the nearest integer, ties to even: the floor
m0 is ⌊√(pq)⌋/q, and the decision between m0 and m0+1 compares p/q with
(m0 + 1/2)², cross-multiplied to integers. -/
def rneSqrt (p q : Nat) : Nat :=
  let m0 := isqrt (p * q) / q
  if q * ((2 * m0 + 1) * (2 * m0 + 1)) < 4 * p then m0 + 1
  else if 4 * p < q * ((2 * m0 + 1) * (2 * m0 + 1)) then m0
  else if m0 % 2 = 0 then m0 else m0 + 1

/-- Value of the Rust cast `n as f32` for a `u64` n: round to nearest,
ties to even, onto the 24-bit-mantissa grid.  Every such value is a
nonnegative integer (n < 2^24 is exact; above, the grid step 2^(L−23) is
an integer), so the model returns that integer. -/
def f32OfNat (n : Nat) : Nat :=
  if n < 2 ^ 24 then n
  else
    let e := nlog2 n - 23
    let q := n / 2 ^ e
    let r := n % 2 ^ e
    if 2 ^ (e - 1) < r ∨ (r = 2 ^ (e - 1) ∧ q % 2 = 1) then (q + 1) * 2 ^ e
    else q * 2 ^ e

/-- Correctly rounded IEEE `f32::sqrt` of a cast-produced (hence integer)
value v ≥ 0, returned as (mantissa m, binade k) with value m·2^(k−23):
k is fixed by 2^(2k) ≤ v < 2^(2k+2), and m is the nearest (ties-even)
integer to √v/2^(k−23) = √(v·2^(46−2k)); a carry to m = 2^24 represents
the exact power 2^(k+1). -/
def f32Sqrt (v : Nat) : Nat × Nat :=
  if v = 0 then (0, 0)
  else
    let kp := nlog2 v / 2
    if 2 * kp ≤ 46 then (rneSqrt (v * 2 ^ (46 - 2 * kp)) 1, kp)
    else (rneSqrt v (2 ^ (2 * kp - 46)), kp)

/-- The Rust cast `as usize` of the sqrt value m·2^(k−23): truncation
toward zero. -/
def f32SqrtTrunc : Nat × Nat → Nat
  | (m, kp) => if 23 ≤ kp then m * 2 ^ (kp - 23) else m / 2 ^ (23 - kp)

/-- The size inference of `from_array`:
`((stones.len() as f32).sqrt()) as usize`. -/
def f32SizeOfLen (n : Nat) : Nat := f32SqrtTrunc (f32Sqrt (f32OfNat n))

/-- The iterator chain of `from_array`: enumerate, map each index to its
coordinate through the order-configured mapper, filter out `None` colors
(modelled by skipping them in the fold), and `push` each remaining stone;
`expect("Play the stone")` turns a returned `Err` into a panic, and an
internal panic propagates — both are `Option.none`. -/
def from_arrayPush (cu : CoordUtil) (g : Goban) : List (Nat × Color) → Option Goban
  | [] => some g
  | (k, c) :: rest =>
    if c = Color.none then from_arrayPush cu g rest
    else
      match g.push (cu.fromIndex k) c with
      | PushOut.ok g' => from_arrayPush cu g' rest
      | _ => Option.none

/-- Method `Goban::from_array(stones, order)`: infer the size through the
f32 cast/sqrt/truncate path, build an empty board, then place every
non-`None` entry via `push` at the coordinate derived through a mapper
configured with the supplied order. -/
def Goban.from_array (stones : List Color) (order : Order) : Option Goban :=
  let size := f32SizeOfLen stones.length
  from_arrayPush (CoordUtil.newOrder size size order) (Goban.new size) stones.enum

/-- Specification-side storage slot of array index k: the row-major linear
index of the coordinate derived from k by the order-configured mapper
(the board reads and writes cells row-major). -/
def sigmaIdx (s : Nat) (order : Order) (k : Nat) : Nat :=
  (CoordUtil.new s s).toIndex ((CoordUtil.newOrder s s order).fromIndex k)

/-- Specification-side invariant of the from_array fold after consuming
the first t entries of arr: the board is structurally sound, the non-empty
entries among the first t occupy their slots, and every slot not owned by
such an entry is still empty. -/
def BuildInv (s : Nat) (order : Order) (arr : List Color) (t : Nat) (g : Goban) : Prop :=
  g.size = s ∧ g.coordUtil = CoordUtil.new s s ∧ g.zobrist = ZOBRIST19 ∧
  g.tab.length = s * s ∧ g.b_stones.length = s * s ∧ g.w_stones.length = s * s ∧
  (∀ k c, k < t → getAt arr k = some c → ¬ c = Color.none →
    getAt g.tab (sigmaIdx s order k) = some c) ∧
  (∀ j, j < s * s →
    (∀ k c, k < t → getAt arr k = some c → ¬ c = Color.none →
      ¬ sigmaIdx s order k = j) →
    getAt g.tab j = some Color.none)

/-- Concrete 20×20 array: one Black stone at index 19, which the
column-major mapper sends to coordinate (19, 0) — Zobrist row
19·19 = 361, outside the fixed table. -/
def c5Arr : List Color :=
  List.replicate 19 Color.none ++ Color.black :: List.replicate 380 Color.none

/-- Concrete all-empty array of perfect-square length (2^24 + 1)². -/
def c5BigArr : List Color := List.replicate (16777217 * 16777217) Color.none

/-- Concrete 2×2 array for the from_array witness. -/
def waArr : List Color := [Color.black, Color.none, Color.none, Color.white]

theorem getAt_lt {α : Type _} {l : List α} {i : Nat} {a : α}
    (h : getAt l i = some a) : i < l.length := by
  induction l generalizing i with
  | nil => simp [getAt] at h
  | cons b t ih =>
    cases i with
    | zero => simp
    | succ j => simpa using Nat.succ_lt_succ (ih (by simpa [getAt] using h))

theorem getAt_of_lt {α : Type _} {l : List α} {i : Nat} (h : i < l.length) :
    ∃ a, getAt l i = some a := by
  induction l generalizing i with
  | nil => simp at h
  | cons b t ih =>
    cases i with
    | zero => exact ⟨b, rfl⟩
    | succ j => simpa [getAt] using ih (by simpa using h)

theorem getAt_none_of_ge {α : Type _} {l : List α} {i : Nat} (h : l.length ≤ i) :
    getAt l i = Option.none := by
  induction l generalizing i with
  | nil => cases i <;> rfl
  | cons b t ih =>
    cases i with
    | zero => simp at h
    | succ j => simpa [getAt] using ih (by simpa using h)

theorem getAt_replicate {α : Type _} {i n : Nat} {a : α} (h : i < n) :
    getAt (List.replicate n a) i = some a := by
  induction n generalizing i with
  | zero => simp at h
  | succ m ih =>
    cases i with
    | zero => rfl
    | succ j => simpa [List.replicate, getAt] using ih (by omega)

theorem setAt_some_of_lt {α : Type _} {l : List α} {i : Nat} (x : α)
    (h : i < l.length) : ∃ l', setAt l i x = some l' := by
  induction l generalizing i with
  | nil => simp at h
  | cons b t ih =>
    cases i with
    | zero => exact ⟨x :: t, rfl⟩
    | succ j =>
      obtain ⟨t', ht⟩ := ih (i := j) (by simpa using h)
      exact ⟨b :: t', by simp [setAt, ht]⟩

theorem setAt_none_of_ge {α : Type _} {l : List α} {i : Nat} (x : α)
    (h : l.length ≤ i) : setAt l i x = Option.none := by
  induction l generalizing i with
  | nil => cases i <;> rfl
  | cons b t ih =>
    cases i with
    | zero => simp at h
    | succ j => simp [setAt, ih (i := j) (by simpa using h)]

theorem length_setAt {α : Type _} {l l' : List α} {i : Nat} {x : α}
    (h : setAt l i x = some l') : l'.length = l.length := by
  induction l generalizing i l' with
  | nil => simp [setAt] at h
  | cons b t ih =>
    cases i with
    | zero =>
      cases h
      simp
    | succ j =>
      simp only [setAt] at h
      cases ht : setAt t j x with
      | none => rw [ht] at h; simp at h
      | some t' =>
        rw [ht] at h
        cases h
        simpa using ih ht

theorem getAt_setAt_self {α : Type _} {l l' : List α} {i : Nat} {x : α}
    (h : setAt l i x = some l') : getAt l' i = some x := by
  induction l generalizing i l' with
  | nil => simp [setAt] at h
  | cons b t ih =>
    cases i with
    | zero => cases h; rfl
    | succ j =>
      simp only [setAt] at h
      cases ht : setAt t j x with
      | none => rw [ht] at h; simp at h
      | some t' =>
        rw [ht] at h
        cases h
        simpa [getAt] using ih ht

theorem getAt_setAt_ne {α : Type _} {l l' : List α} {i j : Nat} {x : α}
    (h : setAt l i x = some l') (hj : j ≠ i) : getAt l' j = getAt l j := by
  induction l generalizing i j l' with
  | nil => simp [setAt] at h
  | cons b t ih =>
    cases i with
    | zero =>
      cases h
      cases j with
      | zero => exact absurd rfl hj
      | succ j' => rfl
    | succ i' =>
      simp only [setAt] at h
      cases ht : setAt t i' x with
      | none => rw [ht] at h; simp at h
      | some t' =>
        rw [ht] at h
        cases h
        cases j with
        | zero => rfl
        | succ j' => simpa [getAt] using ih ht (by omega)

theorem setAt_of_getAt {α : Type _} {l : List α} {i : Nat} {a : α}
    (h : getAt l i = some a) : setAt l i a = some l := by
  induction l generalizing i with
  | nil => simp [getAt] at h
  | cons b t ih =>
    cases i with
    | zero =>
      cases h
      rfl
    | succ j => simp [setAt, ih (by simpa [getAt] using h)]

theorem setAt_setAt {α : Type _} {l l' : List α} {i : Nat} {a b : α}
    (h : setAt l i a = some l') : setAt l' i b = setAt l i b := by
  induction l generalizing i l' with
  | nil => simp [setAt] at h
  | cons c t ih =>
    cases i with
    | zero => cases h; rfl
    | succ j =>
      simp only [setAt] at h
      cases ht : setAt t j a with
      | none => rw [ht] at h; simp at h
      | some t' =>
        rw [ht] at h
        cases h
        simp [setAt, ih ht]


theorem setAt2_some {h : List (List Nat)} {i : Nat} {row : List Nat} (j v : Nat)
    (hrow : getAt h i = some row) (hj : j < row.length) :
    ∃ h' row', setAt row j v = some row' ∧ setAt2 h i j v = some h' ∧
      setAt h i row' = some h' := by
  obtain ⟨row', hr⟩ := setAt_some_of_lt v hj
  obtain ⟨h', hh⟩ := setAt_some_of_lt row' (getAt_lt hrow)
  exact ⟨h', row', hr, by simp [setAt2, hrow, hr, hh], hh⟩

theorem zfGo_some {todo : List Nat} : ∀ {s : XSState} {h : List (List Nat)},
    (∀ i, i ∈ todo → i < h.length) →
    (∀ i r, getAt h i = some r → r.length = 2) →
    ∃ h' s', zfGo todo s h = some (h', s') ∧ h'.length = h.length ∧
      (∀ i r, getAt h' i = some r → r.length = 2) ∧
      (∀ j, ¬ j ∈ todo → getAt h' j = getAt h j) := by
  induction todo with
  | nil => exact fun _ hs => ⟨_, _, rfl, rfl, hs, fun _ _ => rfl⟩
  | cons i rest ih =>
    intro s h hb hs
    obtain ⟨row, hrow⟩ := getAt_of_lt (hb i (by simp))
    have hrl : row.length = 2 := hs i row hrow
    obtain ⟨h1, row1, hr1, hset1, hw1⟩ :=
      setAt2_some 0 (xsNextU64 s).1 hrow (by omega)
    have hrow1 : getAt h1 i = some row1 := getAt_setAt_self hw1
    have hrl1 : row1.length = 2 := by rw [length_setAt hr1]; exact hrl
    obtain ⟨h2, row2, hr2, hset2, hw2⟩ :=
      setAt2_some 1 (xsNextU64 (xsNextU64 s).2).1 hrow1 (by omega)
    have hlen1 : h1.length = h.length := length_setAt hw1
    have hlen2 : h2.length = h1.length := length_setAt hw2
    have hshape2 : ∀ i' r, getAt h2 i' = some r → r.length = 2 := by
      intro i' r hr
      by_cases hii : i' = i
      · subst hii
        rw [getAt_setAt_self hw2] at hr
        cases hr
        rw [length_setAt hr2]
        exact hrl1
      · rw [getAt_setAt_ne hw2 hii, getAt_setAt_ne hw1 hii] at hr
        exact hs i' r hr
    obtain ⟨h', s', hrun, hlen', hshape', hframe'⟩ :=
      ih (s := (xsNextU64 (xsNextU64 s).2).2) (h := h2)
        (fun i' hi' => by rw [hlen2, hlen1]; exact hb i' (by simp [hi']))
        hshape2
    refine ⟨h', s', ?_, by rw [hlen', hlen2, hlen1], hshape', ?_⟩
    · simp only [zfGo, hset1, hset2]
      exact hrun
    · intro j hj
      have hji : j ≠ i := fun hc => hj (by simp [hc])
      have hjrest : ¬ j ∈ rest := fun hc => hj (by simp [hc])
      rw [hframe' j hjrest, getAt_setAt_ne hw2 hji, getAt_setAt_ne hw1 hji]

theorem zfGo_none {todo : List Nat} : ∀ {s : XSState} {h : List (List Nat)},
    (∀ i r, getAt h i = some r → r.length = 2) →
    (∃ i, i ∈ todo ∧ h.length ≤ i) →
    zfGo todo s h = Option.none := by
  induction todo with
  | nil => rintro _ _ _ ⟨i, hi, _⟩; simp at hi
  | cons i rest ih =>
    intro s h hs ⟨i0, hi0, hge⟩
    by_cases hlt : i < h.length
    · obtain ⟨row, hrow⟩ := getAt_of_lt hlt
      have hrl : row.length = 2 := hs i row hrow
      obtain ⟨h1, row1, hr1, hset1, hw1⟩ :=
        setAt2_some 0 (xsNextU64 s).1 hrow (by omega)
      have hrow1 : getAt h1 i = some row1 := getAt_setAt_self hw1
      have hrl1 : row1.length = 2 := by rw [length_setAt hr1]; exact hrl
      obtain ⟨h2, row2, hr2, hset2, hw2⟩ :=
        setAt2_some 1 (xsNextU64 (xsNextU64 s).2).1 hrow1 (by omega)
      have hlen2 : h2.length = h.length := by
        rw [length_setAt hw2, length_setAt hw1]
      have hshape2 : ∀ i' r, getAt h2 i' = some r → r.length = 2 := by
        intro i' r hr
        by_cases hii : i' = i
        · subst hii
          rw [getAt_setAt_self hw2] at hr
          cases hr
          rw [length_setAt hr2]
          exact hrl1
        · rw [getAt_setAt_ne hw2 hii, getAt_setAt_ne hw1 hii] at hr
          exact hs i' r hr
      have hi0rest : i0 ∈ rest := by
        rcases List.mem_cons.mp hi0 with hc | hc
        · omega
        · exact hc
      simp only [zfGo, hset1, hset2]
      exact ih hshape2 ⟨i0, hi0rest, by omega⟩
    · have hrow : getAt h i = Option.none := getAt_none_of_ge (by omega)
      simp [zfGo, setAt2, hrow]

theorem shape_init : ∀ i r,
    getAt (List.replicate (19 * 19) (List.replicate 2 0)) i = some r → r.length = 2 := by
  intro i r h
  have hlt : i < (List.replicate (19 * 19) (List.replicate 2 (0 : Nat))).length := getAt_lt h
  rw [getAt_replicate (by simpa using hlt)] at h
  cases h
  simp

theorem mul_add_lt {x y n : Nat} (hx : x < n) (hy : y < n) : x * n + y < n * n := by
  have h1 : x * n + y < (x + 1) * n := by
    have : (x + 1) * n = x * n + n := by ring
    omega
  have h2 : (x + 1) * n ≤ n * n := Nat.mul_le_mul (Nat.succ_le_of_lt hx) (Nat.le_refl n)
  omega

theorem new_some_of_le {n : Nat} (hn : n ≤ 19) :
    ∃ t, ZobristTable.new n = some t ∧ t.n = n ∧ t.hashes.length = 19 * 19 ∧
      (∀ i r, getAt t.hashes i = some r → r.length = 2) := by
  obtain ⟨h', s', hrun, hlen, hshape, _⟩ :=
    @zfGo_some (List.range (n * n)) (xsSeedFromU64 SEED)
      (List.replicate (19 * 19) (List.replicate 2 0))
      (fun i hi => by
        have := List.mem_range.mp hi
        have : i < 19 * 19 := by
          have := Nat.mul_le_mul hn hn
          omega
        simpa using this)
      shape_init
  refine ⟨⟨h', n⟩, ?_, rfl, ?_, hshape⟩
  · rw [ZobristTable.new, hrun]
    rfl
  · simpa using hlen

theorem new_none_of_gt {n : Nat} (hn : 19 < n) : ZobristTable.new n = Option.none := by
  rw [ZobristTable.new]
  rw [zfGo_none shape_init ⟨19 * 19, ?_, by simp⟩]
  · rfl
  · refine List.mem_range.mpr ?_
    have h20 : 20 ≤ n := hn
    have := Nat.mul_le_mul h20 h20
    omega

theorem new_inv {n : Nat} {t : ZobristTable} (h : ZobristTable.new n = some t) :
    t.n = n ∧ t.hashes.length = 19 * 19 ∧
      (∀ i r, getAt t.hashes i = some r → r.length = 2) := by
  by_cases hn : n ≤ 19
  · obtain ⟨t', ht', hn', hlen', hshape'⟩ := new_some_of_le hn
    rw [ht'] at h
    cases h
    exact ⟨hn', hlen', hshape'⟩
  · rw [new_none_of_gt (by omega)] at h
    cases h

theorem zobrist19_eq : ZobristTable.new 19 = some ZOBRIST19 := by
  obtain ⟨t, ht, _, _, _⟩ := new_some_of_le (Nat.le_refl 19)
  rw [ZOBRIST19, ht]
  rfl

theorem zobrist19_shape : ∀ i r, getAt ZOBRIST19.hashes i = some r → r.length = 2 :=
  (new_inv zobrist19_eq).2.2

theorem zobrist19_n : ZOBRIST19.n = 19 :=
  (new_inv zobrist19_eq).1

theorem zobrist19_len : ZOBRIST19.hashes.length = 19 * 19 :=
  (new_inv zobrist19_eq).2.1

theorem lookup_isSome {n : Nat} {t : ZobristTable} {x y : Nat} {c : Color}
    (ht : ZobristTable.new n = some t) (hx : x < n) (hy : y < n)
    (hc : c ≠ Color.none) : (zobristLookup t (x, y) c).isSome := by
  obtain ⟨hn, hlen, hshape⟩ := new_inv ht
  have hnle : n ≤ 19 := by
    by_contra hgt
    rw [new_none_of_gt (by omega)] at ht
    cases ht
  have hrowlt : x * t.n + y < t.hashes.length := by
    rw [hn, hlen]
    have h1 : x * n + y < n * n := mul_add_lt hx hy
    have h2 : n * n ≤ 19 * 19 := Nat.mul_le_mul hnle hnle
    omega
  obtain ⟨row, hrow⟩ := getAt_of_lt hrowlt
  have hrl : row.length = 2 := hshape _ row hrow
  rw [zobristLookup]
  rw [hrow]
  cases c with
  | none => exact absurd rfl hc
  | black =>
    obtain ⟨a, ha⟩ := getAt_of_lt (l := row) (i := (Color.black.discr + 255) % 256) (by
      have : (Color.black.discr + 255) % 256 = 0 := by decide
      omega)
    simp [ha]
  | white =>
    obtain ⟨a, ha⟩ := getAt_of_lt (l := row) (i := (Color.white.discr + 255) % 256) (by
      have : (Color.white.discr + 255) % 256 = 1 := by decide
      omega)
    simp [ha]

theorem lookup_color_none {t : ZobristTable} {p : Nat × Nat}
    (hshape : ∀ i r, getAt t.hashes i = some r → r.length = 2) :
    zobristLookup t p Color.none = Option.none := by
  rw [zobristLookup]
  cases hrow : getAt t.hashes (p.1 * t.n + p.2) with
  | none => rfl
  | some row =>
    have hrl : row.length = 2 := hshape _ row hrow
    have : (Color.none.discr + 255) % 256 = 255 := by decide
    rw [this]
    exact getAt_none_of_ge (by omega)



theorem zfGo_cons_step {i : Nat} {rest : List Nat} {s : XSState}
    {h h1 h2 : List (List Nat)}
    (h1eq : setAt2 h i 0 (xsNextU64 s).1 = some h1)
    (h2eq : setAt2 h1 i 1 (xsNextU64 (xsNextU64 s).2).1 = some h2) :
    zfGo (i :: rest) s h = zfGo rest (xsNextU64 (xsNextU64 s).2).2 h2 := by
  simp only [zfGo, h1eq, h2eq]

theorem zfGo_range361 :
    ∃ h' s', zfGo (List.range (19 * 19)) (xsSeedFromU64 SEED)
        (List.replicate (19 * 19) (List.replicate 2 0)) = some (h', s') ∧
      getAt h' 0 = some [zKey00B, zKey00W] := by
  have hrange : List.range (19 * 19) = 0 :: List.range' 1 360 := by
    rw [List.range_eq_range']
    rfl
  have hstep1 : setAt2 (List.replicate (19 * 19) (List.replicate 2 0)) 0 0
      (xsNextU64 (xsSeedFromU64 SEED)).1 =
      some ([(xsNextU64 (xsSeedFromU64 SEED)).1, 0] ::
        List.replicate 360 (List.replicate 2 0)) := rfl
  have hstep2 : setAt2 ([(xsNextU64 (xsSeedFromU64 SEED)).1, 0] ::
        List.replicate 360 (List.replicate 2 0)) 0 1
      (xsNextU64 (xsNextU64 (xsSeedFromU64 SEED)).2).1 =
      some ([zKey00B, zKey00W] :: List.replicate 360 (List.replicate 2 0)) := rfl
  obtain ⟨h', s', hrun, hlen, hshape, hframe⟩ :=
    @zfGo_some (List.range' 1 360)
      ((xsNextU64 (xsNextU64 (xsSeedFromU64 SEED)).2).2)
      ([zKey00B, zKey00W] :: List.replicate 360 (List.replicate 2 0))
      (fun i hi => by
        have := List.mem_range'_1.mp hi
        simp only [List.length_cons, List.length_replicate]
        omega)
      (fun i r hr => by
        cases i with
        | zero =>
          cases hr
          rfl
        | succ j =>
          have hlt : j < (List.replicate 360 (List.replicate 2 (0 : Nat))).length :=
            getAt_lt hr
          rw [show getAt ([zKey00B, zKey00W] ::
              List.replicate 360 (List.replicate 2 0)) (j + 1) =
              getAt (List.replicate 360 (List.replicate 2 0)) j from rfl,
            getAt_replicate (by simpa using hlt)] at hr
          cases hr
          rfl)
  refine ⟨h', s', ?_, ?_⟩
  · rw [hrange, zfGo_cons_step hstep1 hstep2]
    exact hrun
  · rw [hframe 0 (by simp)]
    rfl

theorem zobrist19_row0 : getAt ZOBRIST19.hashes 0 = some [zKey00B, zKey00W] := by
  obtain ⟨h', s', hrun, hget⟩ := zfGo_range361
  have hnew : ZobristTable.new 19 = some ⟨h', 19⟩ := by
    rw [ZobristTable.new, hrun]
    rfl
  have heq : ZOBRIST19 = ⟨h', 19⟩ :=
    Option.some.inj (zobrist19_eq.symm.trans hnew)
  rw [congrArg ZobristTable.hashes heq]
  exact hget

theorem lookup_row0 {t : ZobristTable} {a b : Nat}
    (hrow : getAt t.hashes 0 = some [a, b]) :
    zobristLookup t (0, 0) Color.black = some a ∧
      zobristLookup t (0, 0) Color.white = some b := by
  constructor <;>
  · rw [zobristLookup]
    rw [show ((0, 0) : Nat × Nat).1 * t.n + ((0, 0) : Nat × Nat).2 = 0 by simp]
    rw [hrow]
    rfl

theorem lookup00B : zobristLookup ZOBRIST19 (0, 0) Color.black = some zKey00B :=
  (lookup_row0 zobrist19_row0).1

theorem lookup00W : zobristLookup ZOBRIST19 (0, 0) Color.white = some zKey00W :=
  (lookup_row0 zobrist19_row0).2

theorem push_black_eq {g : Goban} {p : Nat × Nat} {b' : List Bool}
    {tab' : List Color} {k : Nat}
    (hv : g.coordValid p = true)
    (hb : setAt g.b_stones (g.coordUtil.toIndex p) true = some b')
    (hk : zobristLookup g.zobrist p Color.black = some k)
    (ht : setAt g.tab (g.coordUtil.toIndex p) Color.black = some tab') :
    g.push p Color.black =
      PushOut.ok { g with tab := tab', b_stones := b', hash := g.hash ^^^ k } := by
  simp [Goban.push, hv, hb, hk, ht]

theorem push_ok_black {g g' : Goban} {p : Nat × Nat}
    (h : g.push p Color.black = PushOut.ok g') :
    g.coordValid p = true ∧
    ∃ b' tab' k,
      setAt g.b_stones (g.coordUtil.toIndex p) true = some b' ∧
      zobristLookup g.zobrist p Color.black = some k ∧
      setAt g.tab (g.coordUtil.toIndex p) Color.black = some tab' ∧
      g' = { g with tab := tab', b_stones := b', hash := g.hash ^^^ k } := by
  by_cases hv : g.coordValid p = true
  · refine ⟨hv, ?_⟩
    rw [Goban.push] at h
    simp only [hv, if_true] at h
    cases hsb : setAt g.b_stones (g.coordUtil.toIndex p) true with
    | none => rw [hsb] at h; simp at h
    | some b' =>
      rw [hsb] at h
      simp only [Option.map_some'] at h
      rw [if_neg (by decide : ¬ Color.black = Color.none)] at h
      cases hk : zobristLookup g.zobrist p Color.black with
      | none => rw [hk] at h; simp at h
      | some k =>
        rw [hk] at h
        cases htb : setAt g.tab (g.coordUtil.toIndex p) Color.black with
        | none => rw [htb] at h; simp at h
        | some tab' =>
          rw [htb] at h
          simp only [PushOut.ok.injEq] at h
          exact ⟨b', tab', k, rfl, rfl, rfl, h.symm⟩
  · rw [Goban.push] at h
    simp only [Bool.not_eq_true] at hv
    rw [hv] at h
    simp at h

theorem push_white_eq {g : Goban} {p : Nat × Nat} {w' : List Bool}
    {tab' : List Color} {k : Nat}
    (hv : g.coordValid p = true)
    (hw : setAt g.w_stones (g.coordUtil.toIndex p) true = some w')
    (hk : zobristLookup g.zobrist p Color.white = some k)
    (ht : setAt g.tab (g.coordUtil.toIndex p) Color.white = some tab') :
    g.push p Color.white =
      PushOut.ok { g with tab := tab', w_stones := w', hash := g.hash ^^^ k } := by
  simp [Goban.push, hv, hw, hk, ht]

theorem push_none_eq {g : Goban} {p : Nat × Nat} {b' w' : List Bool}
    {tab' : List Color} {old : Color} {k : Nat}
    (hv : g.coordValid p = true)
    (hb : setAt g.b_stones (g.coordUtil.toIndex p) false = some b')
    (hw : setAt g.w_stones (g.coordUtil.toIndex p) false = some w')
    (hold : getAt g.tab (g.coordUtil.toIndex p) = some old)
    (hk : zobristLookup g.zobrist p old = some k)
    (ht : setAt g.tab (g.coordUtil.toIndex p) Color.none = some tab') :
    g.push p Color.none =
      PushOut.ok { g with
        tab := tab'
        b_stones := b'
        w_stones := w'
        hash := g.hash ^^^ k } := by
  simp [Goban.push, hv, hb, hw, hold, hk, ht]

theorem push_ok_white {g g' : Goban} {p : Nat × Nat}
    (h : g.push p Color.white = PushOut.ok g') :
    g.coordValid p = true ∧
    ∃ w' tab' k,
      setAt g.w_stones (g.coordUtil.toIndex p) true = some w' ∧
      zobristLookup g.zobrist p Color.white = some k ∧
      setAt g.tab (g.coordUtil.toIndex p) Color.white = some tab' ∧
      g' = { g with tab := tab', w_stones := w', hash := g.hash ^^^ k } := by
  by_cases hv : g.coordValid p = true
  · refine ⟨hv, ?_⟩
    rw [Goban.push] at h
    simp only [hv, if_true] at h
    cases hsw : setAt g.w_stones (g.coordUtil.toIndex p) true with
    | none => rw [hsw] at h; simp at h
    | some w' =>
      rw [hsw] at h
      simp only [Option.map_some'] at h
      rw [if_neg (by decide : ¬ Color.white = Color.none)] at h
      cases hk : zobristLookup g.zobrist p Color.white with
      | none => rw [hk] at h; simp at h
      | some k =>
        rw [hk] at h
        cases htb : setAt g.tab (g.coordUtil.toIndex p) Color.white with
        | none => rw [htb] at h; simp at h
        | some tab' =>
          rw [htb] at h
          simp only [PushOut.ok.injEq] at h
          exact ⟨w', tab', k, rfl, rfl, rfl, h.symm⟩
  · rw [Goban.push] at h
    simp only [Bool.not_eq_true] at hv
    rw [hv] at h
    simp at h

theorem push_ok_none {g g' : Goban} {p : Nat × Nat}
    (h : g.push p Color.none = PushOut.ok g') :
    g.coordValid p = true ∧
    ∃ b' w' old k tab',
      setAt g.b_stones (g.coordUtil.toIndex p) false = some b' ∧
      setAt g.w_stones (g.coordUtil.toIndex p) false = some w' ∧
      getAt g.tab (g.coordUtil.toIndex p) = some old ∧
      zobristLookup g.zobrist p old = some k ∧
      setAt g.tab (g.coordUtil.toIndex p) Color.none = some tab' ∧
      g' = { g with
        tab := tab'
        b_stones := b'
        w_stones := w'
        hash := g.hash ^^^ k } := by
  by_cases hv : g.coordValid p = true
  · refine ⟨hv, ?_⟩
    rw [Goban.push] at h
    simp only [hv, if_true] at h
    cases hsb : setAt g.b_stones (g.coordUtil.toIndex p) false with
    | none => rw [hsb] at h; simp at h
    | some b' =>
      rw [hsb] at h
      cases hsw : setAt g.w_stones (g.coordUtil.toIndex p) false with
      | none => rw [hsw] at h; simp at h
      | some w' =>
        rw [hsw] at h
        simp only [] at h
        cases hold : getAt g.tab (g.coordUtil.toIndex p) with
        | none => rw [hold] at h; simp at h
        | some old =>
          simp only [hold] at h
          cases hk : zobristLookup g.zobrist p old with
          | none => rw [hk] at h; simp at h
          | some k =>
            simp only [hk] at h
            cases htb : setAt g.tab (g.coordUtil.toIndex p) Color.none with
            | none => rw [htb] at h; simp at h
            | some tab' =>
              simp only [htb, PushOut.ok.injEq] at h
              exact ⟨b', w', old, k, tab', rfl, rfl, rfl, hk, rfl, h.symm⟩
  · rw [Goban.push] at h
    simp only [Bool.not_eq_true] at hv
    rw [hv] at h
    simp at h

theorem push_none_panicked {g : Goban} {p : Nat × Nat}
    (hv : g.coordValid p = true)
    (hnk : ∀ old, getAt g.tab (g.coordUtil.toIndex p) = some old →
      zobristLookup g.zobrist p old = Option.none) :
    g.push p Color.none = PushOut.panicked := by
  rw [Goban.push]
  simp only [hv, if_true]
  cases hsb : setAt g.b_stones (g.coordUtil.toIndex p) false with
  | none => simp [hsb]
  | some b' =>
    cases hsw : setAt g.w_stones (g.coordUtil.toIndex p) false with
    | none => simp [hsb, hsw]
    | some w' =>
      simp only [hsb, hsw]
      cases hold : getAt g.tab (g.coordUtil.toIndex p) with
      | none => simp [hold]
      | some old => simp [hold, hnk old hold]

theorem push_err {g : Goban} {p : Nat × Nat} {c : Color}
    (hv : g.coordValid p = false) :
    g.push p c = PushOut.err g (oobMsg p) := by
  rw [Goban.push, hv]
  simp

theorem coordValid_iff {g : Goban} {p : Nat × Nat} :
    g.coordValid p = true ↔ p.1 < g.size ∧ p.2 < g.size := by
  simp [Goban.coordValid]

theorem toIndex_rowMajor {s : Nat} {p : Nat × Nat} :
    (CoordUtil.new s s).toIndex p = p.1 * s + p.2 := rfl

theorem toIndex_lt {s : Nat} {p : Nat × Nat} (h1 : p.1 < s) (h2 : p.2 < s) :
    (CoordUtil.new s s).toIndex p < s * s := by
  rw [toIndex_rowMajor]
  exact mul_add_lt h1 h2

theorem from_to {s : Nat} {p : Nat × Nat} (h2 : p.2 < s) :
    (CoordUtil.new s s).fromIndex ((CoordUtil.new s s).toIndex p) = p := by
  have hs : 0 < s := by omega
  rw [toIndex_rowMajor]
  show ((p.1 * s + p.2) / s, (p.1 * s + p.2) % s) = p
  have hdiv : (p.1 * s + p.2) / s = p.1 := by
    rw [Nat.mul_comm p.1 s, Nat.mul_add_div hs, Nat.div_eq_of_lt h2]
    omega
  have hmod : (p.1 * s + p.2) % s = p.2 := by
    rw [Nat.mul_comm p.1 s, Nat.mul_add_mod, Nat.mod_eq_of_lt h2]
  rw [hdiv, hmod]

theorem xor_swap_right (a b c : Nat) : a ^^^ b ^^^ c = a ^^^ c ^^^ b := by
  rw [Nat.xor_assoc, Nat.xor_comm b c, ← Nat.xor_assoc]

theorem xorRange_congr {f f' : Nat → Nat} : ∀ {n : Nat},
    (∀ j, j < n → f j = f' j) → xorRange f n = xorRange f' n
  | 0, _ => rfl
  | n + 1, h => by
    rw [xorRange, xorRange, xorRange_congr (fun j hj => h j (by omega)),
      h n (by omega)]

theorem xorRange_zero {f : Nat → Nat} : ∀ {n : Nat},
    (∀ j, j < n → f j = 0) → xorRange f n = 0
  | 0, _ => rfl
  | n + 1, h => by
    rw [xorRange, xorRange_zero (fun j hj => h j (by omega)), h n (by omega)]
    rfl

theorem xorRange_update {f f' : Nat → Nat} {i : Nat} : ∀ {n : Nat}, i < n →
    (∀ j, j ≠ i → f' j = f j) →
    xorRange f' n = xorRange f n ^^^ f i ^^^ f' i := by
  intro n
  induction n with
  | zero => intro hi _; omega
  | succ m ih =>
    intro hi hagree
    by_cases him : i = m
    · subst him
      rw [xorRange, xorRange,
        @xorRange_congr f' f i (fun j hj => hagree j (by omega))]
      have h2 : xorRange f i ^^^ f i ^^^ f i = xorRange f i := by
        rw [Nat.xor_assoc, Nat.xor_self, Nat.xor_zero]
      rw [h2]
    · have hi' : i < m := by omega
      rw [xorRange, xorRange, ih hi' hagree, hagree m (Ne.symm him),
        xor_swap_right (xorRange f m ^^^ f i) (f' i) (f m),
        xor_swap_right (xorRange f m) (f i) (f m)]

theorem cellContrib_congr {zt : ZobristTable} {cu : CoordUtil}
    {tab tab' : List Color} {j : Nat} (h : getAt tab' j = getAt tab j) :
    cellContrib zt cu tab' j = cellContrib zt cu tab j := by
  unfold cellContrib
  rw [h]

theorem cellContrib_none {zt : ZobristTable} {cu : CoordUtil}
    {tab : List Color} {j : Nat} (h : getAt tab j = some Color.none) :
    cellContrib zt cu tab j = 0 := by
  simp [cellContrib, h]

theorem cellContrib_some {zt : ZobristTable} {cu : CoordUtil}
    {tab : List Color} {j : Nat} {c : Color} (h : getAt tab j = some c)
    (hc : ¬ c = Color.none) :
    cellContrib zt cu tab j = (zobristLookup zt (cu.fromIndex j) c).getD 0 := by
  simp [cellContrib, h, hc]

theorem wf_new (s : Nat) : (Goban.new s).WF := by
  refine ⟨?_, ?_, ?_, rfl, rfl⟩ <;> simp [Goban.new]

theorem cons_new (s : Nat) : (Goban.new s).Consistent := by
  intro i hi
  have hi' : i < s * s := by simpa [Goban.new] using hi
  have ht : getAt (Goban.new s).tab i = some Color.none := getAt_replicate hi'
  have hb : getAt (Goban.new s).b_stones i = some false := getAt_replicate hi'
  have hw : getAt (Goban.new s).w_stones i = some false := getAt_replicate hi'
  rw [ht, hb, hw]
  simp

theorem hash_new (s : Nat) : (Goban.new s).hash = (Goban.new s).recomputeHash := by
  rw [Goban.recomputeHash]
  refine (xorRange_zero (fun j hj => ?_)).symm
  have hj' : j < s * s := by simpa [Goban.new] using hj
  exact cellContrib_none (getAt_replicate hj')

theorem wf_push {g g' : Goban} {p : Nat × Nat} {c : Color}
    (hwf : g.WF) (hok : g.push p c = PushOut.ok g') : g'.WF := by
  obtain ⟨htl, hbl, hwl, hcu, hz⟩ := hwf
  cases c with
  | black =>
    obtain ⟨hv, b', tab', k, hb, hk, ht, hge⟩ := push_ok_black hok
    subst hge
    refine ⟨?_, ?_, ?_, ?_, ?_⟩
    · show tab'.length = g.size * g.size
      rw [length_setAt ht]
      exact htl
    · show b'.length = g.size * g.size
      rw [length_setAt hb]
      exact hbl
    · exact hwl
    · exact hcu
    · exact hz
  | white =>
    obtain ⟨hv, w', tab', k, hw, hk, ht, hge⟩ := push_ok_white hok
    subst hge
    refine ⟨?_, ?_, ?_, ?_, ?_⟩
    · show tab'.length = g.size * g.size
      rw [length_setAt ht]
      exact htl
    · exact hbl
    · show w'.length = g.size * g.size
      rw [length_setAt hw]
      exact hwl
    · exact hcu
    · exact hz
  | none =>
    obtain ⟨hv, b', w', old, k, tab', hb, hw, hold, hk, ht, hge⟩ := push_ok_none hok
    subst hge
    refine ⟨?_, ?_, ?_, ?_, ?_⟩
    · show tab'.length = g.size * g.size
      rw [length_setAt ht]
      exact htl
    · show b'.length = g.size * g.size
      rw [length_setAt hb]
      exact hbl
    · show w'.length = g.size * g.size
      rw [length_setAt hw]
      exact hwl
    · exact hcu
    · exact hz

theorem push_ok_fields {g g' : Goban} {p : Nat × Nat} {c : Color}
    (hok : g.push p c = PushOut.ok g') :
    g'.size = g.size ∧ g'.coordUtil = g.coordUtil ∧ g'.zobrist = g.zobrist := by
  cases c with
  | black =>
    obtain ⟨hv, b', tab', k, hb, hk, ht, hge⟩ := push_ok_black hok
    subst hge
    exact ⟨rfl, rfl, rfl⟩
  | white =>
    obtain ⟨hv, w', tab', k, hw, hk, ht, hge⟩ := push_ok_white hok
    subst hge
    exact ⟨rfl, rfl, rfl⟩
  | none =>
    obtain ⟨hv, b', w', old, k, tab', hb, hw, hold, hk, ht, hge⟩ := push_ok_none hok
    subst hge
    exact ⟨rfl, rfl, rfl⟩

theorem clean_step {g g' : Goban} {p : Nat × Nat} {c : Color}
    (hwf : g.WF) (hinv : g.hash = g.recomputeHash)
    (hok : g.push p c = PushOut.ok g')
    (hcond : getAt g.tab (g.coordUtil.toIndex p) = some Color.none ∨
      c = Color.none) :
    g'.hash = g'.recomputeHash := by
  obtain ⟨htl, hbl, hwl, hcu, hz⟩ := hwf
  rw [Goban.recomputeHash] at hinv
  cases c with
  | black =>
    obtain ⟨hv, b', tab', k, hb, hk, ht, hge⟩ := push_ok_black hok
    have hcell : getAt g.tab (g.coordUtil.toIndex p) = some Color.none := by
      rcases hcond with h | h
      · exact h
      · nomatch h
    subst hge
    obtain ⟨hp1, hp2⟩ := coordValid_iff.mp hv
    have hlt : g.coordUtil.toIndex p < g.size * g.size := by
      rw [hcu]
      exact toIndex_lt hp1 hp2
    show g.hash ^^^ k =
      xorRange (cellContrib g.zobrist g.coordUtil tab') (g.size * g.size)
    rw [xorRange_update hlt (fun j hj => cellContrib_congr (getAt_setAt_ne ht hj)),
      cellContrib_none hcell,
      cellContrib_some (getAt_setAt_self ht) (by decide)]
    have hfrom : g.coordUtil.fromIndex (g.coordUtil.toIndex p) = p := by
      rw [hcu]
      exact from_to hp2
    rw [hfrom, hk, hinv]
    simp only [Option.getD_some, Nat.xor_zero]
  | white =>
    obtain ⟨hv, w', tab', k, hw, hk, ht, hge⟩ := push_ok_white hok
    have hcell : getAt g.tab (g.coordUtil.toIndex p) = some Color.none := by
      rcases hcond with h | h
      · exact h
      · nomatch h
    subst hge
    obtain ⟨hp1, hp2⟩ := coordValid_iff.mp hv
    have hlt : g.coordUtil.toIndex p < g.size * g.size := by
      rw [hcu]
      exact toIndex_lt hp1 hp2
    show g.hash ^^^ k =
      xorRange (cellContrib g.zobrist g.coordUtil tab') (g.size * g.size)
    rw [xorRange_update hlt (fun j hj => cellContrib_congr (getAt_setAt_ne ht hj)),
      cellContrib_none hcell,
      cellContrib_some (getAt_setAt_self ht) (by decide)]
    have hfrom : g.coordUtil.fromIndex (g.coordUtil.toIndex p) = p := by
      rw [hcu]
      exact from_to hp2
    rw [hfrom, hk, hinv]
    simp only [Option.getD_some, Nat.xor_zero]
  | none =>
    obtain ⟨hv, b', w', old, k, tab', hb, hw, hold, hk, ht, hge⟩ := push_ok_none hok
    have holdne : ¬ old = Color.none := by
      intro he
      subst he
      rw [hz, lookup_color_none zobrist19_shape] at hk
      nomatch hk
    subst hge
    obtain ⟨hp1, hp2⟩ := coordValid_iff.mp hv
    have hlt : g.coordUtil.toIndex p < g.size * g.size := by
      rw [hcu]
      exact toIndex_lt hp1 hp2
    show g.hash ^^^ k =
      xorRange (cellContrib g.zobrist g.coordUtil tab') (g.size * g.size)
    rw [xorRange_update hlt (fun j hj => cellContrib_congr (getAt_setAt_ne ht hj)),
      cellContrib_none (getAt_setAt_self ht),
      cellContrib_some hold holdne]
    have hfrom : g.coordUtil.fromIndex (g.coordUtil.toIndex p) = p := by
      rw [hcu]
      exact from_to hp2
    rw [hfrom, hk, hinv]
    simp only [Option.getD_some, Nat.xor_zero]

theorem cons_step {g g' : Goban} {p : Nat × Nat} {c : Color}
    (hwf : g.WF) (hcons : g.Consistent)
    (hok : g.push p c = PushOut.ok g')
    (hcond : c = Color.none ∨
      getAt g.tab (g.coordUtil.toIndex p) = some Color.none ∨
      getAt g.tab (g.coordUtil.toIndex p) = some c) :
    g'.Consistent := by
  obtain ⟨htl, hbl, hwl, hcu, hz⟩ := hwf
  cases c with
  | black =>
    obtain ⟨hv, b', tab', k, hb, hk, ht, hge⟩ := push_ok_black hok
    obtain ⟨hp1, hp2⟩ := coordValid_iff.mp hv
    have hlt : g.coordUtil.toIndex p < g.size * g.size := by
      rw [hcu]
      exact toIndex_lt hp1 hp2
    obtain ⟨oldc, hold, holdw⟩ :
        ∃ oldc, getAt g.tab (g.coordUtil.toIndex p) = some oldc ∧
          ¬ oldc = Color.white := by
      rcases hcond with h | h | h
      · nomatch h
      · exact ⟨Color.none, h, by decide⟩
      · exact ⟨Color.black, h, by decide⟩
    have hwi : getAt g.w_stones (g.coordUtil.toIndex p) = some false := by
      obtain ⟨wv, hwv⟩ := getAt_of_lt (l := g.w_stones)
        (i := g.coordUtil.toIndex p) (by rw [hwl]; exact hlt)
      cases wv with
      | false => exact hwv
      | true =>
        have hcw := ((hcons _ (by rw [htl]; exact hlt)).2.1).mpr hwv
        rw [hold] at hcw
        exact absurd (Option.some.inj hcw) holdw
    subst hge
    intro j hj
    have hjt : j < g.tab.length := by
      rw [← length_setAt ht]
      exact hj
    show (getAt tab' j = some Color.black ↔ getAt b' j = some true) ∧
      (getAt tab' j = some Color.white ↔ getAt g.w_stones j = some true) ∧
      (getAt tab' j = some Color.none ↔
        (getAt b' j = some false ∧ getAt g.w_stones j = some false))
    by_cases hji : j = g.coordUtil.toIndex p
    · subst hji
      rw [getAt_setAt_self ht, getAt_setAt_self hb, hwi]
      refine ⟨by simp, ?_, by simp⟩
      constructor
      · intro hcontra
        nomatch Option.some.inj hcontra
      · intro hcontra
        nomatch Option.some.inj hcontra
    · rw [getAt_setAt_ne ht hji, getAt_setAt_ne hb hji]
      exact hcons j hjt
  | white =>
    obtain ⟨hv, w', tab', k, hw, hk, ht, hge⟩ := push_ok_white hok
    obtain ⟨hp1, hp2⟩ := coordValid_iff.mp hv
    have hlt : g.coordUtil.toIndex p < g.size * g.size := by
      rw [hcu]
      exact toIndex_lt hp1 hp2
    obtain ⟨oldc, hold, holdb⟩ :
        ∃ oldc, getAt g.tab (g.coordUtil.toIndex p) = some oldc ∧
          ¬ oldc = Color.black := by
      rcases hcond with h | h | h
      · nomatch h
      · exact ⟨Color.none, h, by decide⟩
      · exact ⟨Color.white, h, by decide⟩
    have hbi : getAt g.b_stones (g.coordUtil.toIndex p) = some false := by
      obtain ⟨bv, hbv⟩ := getAt_of_lt (l := g.b_stones)
        (i := g.coordUtil.toIndex p) (by rw [hbl]; exact hlt)
      cases bv with
      | false => exact hbv
      | true =>
        have hcb := ((hcons _ (by rw [htl]; exact hlt)).1).mpr hbv
        rw [hold] at hcb
        exact absurd (Option.some.inj hcb) holdb
    subst hge
    intro j hj
    have hjt : j < g.tab.length := by
      rw [← length_setAt ht]
      exact hj
    show (getAt tab' j = some Color.black ↔ getAt g.b_stones j = some true) ∧
      (getAt tab' j = some Color.white ↔ getAt w' j = some true) ∧
      (getAt tab' j = some Color.none ↔
        (getAt g.b_stones j = some false ∧ getAt w' j = some false))
    by_cases hji : j = g.coordUtil.toIndex p
    · subst hji
      rw [getAt_setAt_self ht, getAt_setAt_self hw, hbi]
      refine ⟨?_, by simp, by simp⟩
      constructor
      · intro hcontra
        nomatch Option.some.inj hcontra
      · intro hcontra
        nomatch Option.some.inj hcontra
    · rw [getAt_setAt_ne ht hji, getAt_setAt_ne hw hji]
      exact hcons j hjt
  | none =>
    obtain ⟨hv, b', w', old, k, tab', hb, hw, hold, hk, ht, hge⟩ := push_ok_none hok
    subst hge
    intro j hj
    have hjt : j < g.tab.length := by
      rw [← length_setAt ht]
      exact hj
    show (getAt tab' j = some Color.black ↔ getAt b' j = some true) ∧
      (getAt tab' j = some Color.white ↔ getAt w' j = some true) ∧
      (getAt tab' j = some Color.none ↔
        (getAt b' j = some false ∧ getAt w' j = some false))
    by_cases hji : j = g.coordUtil.toIndex p
    · subst hji
      rw [getAt_setAt_self ht, getAt_setAt_self hb, getAt_setAt_self hw]
      refine ⟨?_, ?_, by simp⟩
      · constructor
        · intro hcontra
          nomatch Option.some.inj hcontra
        · intro hcontra
          nomatch Option.some.inj hcontra
      · constructor
        · intro hcontra
          nomatch Option.some.inj hcontra
        · intro hcontra
          nomatch Option.some.inj hcontra
    · rw [getAt_setAt_ne ht hji, getAt_setAt_ne hb hji, getAt_setAt_ne hw hji]
      exact hcons j hjt

theorem clean_reach_inv {g0 g : Goban} (h : CleanReach g0 g) (hwf : g0.WF)
    (hinv : g0.hash = g0.recomputeHash) : g.WF ∧ g.hash = g.recomputeHash := by
  induction h with
  | refl => exact ⟨hwf, hinv⟩
  | step p c hr hok hcond ih =>
    obtain ⟨hw2, hi2⟩ := ih
    exact ⟨wf_push hw2 hok, clean_step hw2 hi2 hok hcond⟩

theorem noRecolor_reach_inv {g0 g : Goban} (h : NoRecolorReach g0 g) (hwf : g0.WF)
    (hcons : g0.Consistent) : g.WF ∧ g.Consistent := by
  induction h with
  | refl => exact ⟨hwf, hcons⟩
  | step p c hr hok hcond ih =>
    obtain ⟨hw2, hc2⟩ := ih
    exact ⟨wf_push hw2 hok, cons_step hw2 hc2 hok hcond⟩

theorem pushB1 : (Goban.new 1).push (0, 0) Color.black = PushOut.ok oneBlack1 :=
  push_black_eq (by decide) rfl lookup00B rfl

theorem pushB1again : oneBlack1.push (0, 0) Color.black = PushOut.ok twoBlack1 :=
  push_black_eq (by decide) rfl lookup00B rfl

theorem pushW1 : (Goban.new 1).push (0, 0) Color.white = PushOut.ok oneWhite1 :=
  push_white_eq (by decide) rfl lookup00W rfl

theorem pushWB1 : oneWhite1.push (0, 0) Color.black = PushOut.ok whiteThenBlack1 :=
  push_black_eq (by decide) rfl lookup00B rfl

theorem pushWBN1 : whiteThenBlack1.push (0, 0) Color.none = PushOut.ok whiteBlackCleared1 :=
  push_none_eq (by decide) rfl rfl rfl lookup00B rfl

theorem pushB2 : (Goban.new 2).push (0, 0) Color.black = PushOut.ok oneBlack2 :=
  push_black_eq (by decide) rfl lookup00B rfl

theorem pushB2N : oneBlack2.push (0, 0) Color.none = PushOut.ok blackCleared2 :=
  push_none_eq (by decide) rfl rfl rfl lookup00B rfl

/-- C1, counterexample to the claim as stated: the trace `push((0,0), Black)`
twice on `new(1)` stays within the claim's allowed pushes (the second push
rewrites the *same* non-empty color, which the claim's exception does not
cover), yet afterwards the running hash (0) differs from the from-scratch
XOR recomputation (the key of ((0,0), Black)). -/
theorem c1_hash_invariant_counterexample :
    NoRecolorReach (Goban.new 1) twoBlack1 ∧
      ¬ twoBlack1.hash = twoBlack1.recomputeHash := by
  constructor
  · exact NoRecolorReach.step (0, 0) Color.black
      (NoRecolorReach.step (0, 0) Color.black (NoRecolorReach.refl _) pushB1
        (Or.inr (Or.inl rfl)))
      pushB1again (Or.inr (Or.inr rfl))
  · have h1 : twoBlack1.hash = 0 := by
      show 0 ^^^ zKey00B ^^^ zKey00B = 0
      rw [Nat.zero_xor, Nat.xor_self]
    have h2 : twoBlack1.recomputeHash = zKey00B := by
      rw [Goban.recomputeHash]
      show xorRange (cellContrib ZOBRIST19 (CoordUtil.new 1 1) [Color.black]) (1 * 1) =
        zKey00B
      rw [xorRange, xorRange, Nat.zero_xor,
        cellContrib_some (rfl : getAt [Color.black] 0 = some Color.black) (by decide),
        show (CoordUtil.new 1 1).fromIndex 0 = ((0, 0) : Nat × Nat) from rfl,
        lookup00B]
      rfl
    rw [h1, h2]
    decide

/-- C1 (amended): for every board reached from `Goban::new(size)` by
successful pushes none of which writes a non-empty color onto an already
non-empty intersection (same color included — the claim's exception must be
widened to cover rewriting the same color, see the counterexample), the
running hash equals the XOR, over every linear index with a non-empty cell,
of the Zobrist key for (coordinate of the index, color there). -/
theorem c1_hash_invariant_clean (size : Nat) (g : Goban)
    (h : CleanReach (Goban.new size) g) : g.hash = g.recomputeHash :=
  (clean_reach_inv h (wf_new size) (hash_new size)).2

/-- C1 witness: the invariant at the concrete board `new(2)` after
`push((0,0), Black)`. -/
theorem c1_hash_invariant_clean_witness : oneBlack2.hash = oneBlack2.recomputeHash :=
  c1_hash_invariant_clean 2 oneBlack2
    (CleanReach.step (0, 0) Color.black (CleanReach.refl _) pushB2 (Or.inl rfl))

/-- C2: pushing at a coordinate with either component at or beyond the size
returns the formatted out-of-bounds error carrying the board unchanged —
grid, both bitsets, hash and size are exactly the input's. -/
theorem c2_push_out_of_bounds (g : Goban) (p : Nat × Nat) (c : Color)
    (h : g.size ≤ p.1 ∨ g.size ≤ p.2) :
    g.push p c = PushOut.err g (oobMsg p) ∧ (g.push p c).state = some g := by
  have hv : g.coordValid p = false := by
    simp only [Goban.coordValid, Bool.and_eq_false_iff, decide_eq_false_iff_not,
      Nat.not_lt]
    omega
  refine ⟨push_err hv, ?_⟩
  rw [push_err hv]
  rfl

/-- C2 witness: out-of-bounds push at (3,1) on a size-3 board. -/
theorem c2_push_out_of_bounds_witness :
    (Goban.new 3).push (3, 1) Color.black =
      PushOut.err (Goban.new 3) (oobMsg (3, 1)) ∧
      ((Goban.new 3).push (3, 1) Color.black).state = some (Goban.new 3) :=
  c2_push_out_of_bounds (Goban.new 3) (3, 1) Color.black (Or.inl (by decide))

/-- C3, counterexample to the claim as stated: `push((0,0), White)` then
`push((0,0), Black)` on `new(1)` is a sequence of successful in-bounds
pushes, but afterwards the cell holds Black while the white occupancy bit
is still set — `grid[i] == White iff whiteOccupied[i]` fails. -/
theorem c3_bitset_consistency_counterexample :
    PushReach (Goban.new 1) whiteThenBlack1 ∧ ¬ whiteThenBlack1.Consistent := by
  constructor
  · exact PushReach.step (0, 0) Color.black
      (PushReach.step (0, 0) Color.white (PushReach.refl _) pushW1) pushWB1
  · intro hcons
    have h := (hcons 0 (by decide)).2.1
    have hw : getAt whiteThenBlack1.w_stones 0 = some true := rfl
    have hcw := h.mpr hw
    rw [show getAt whiteThenBlack1.tab 0 = some Color.black from rfl] at hcw
    nomatch Option.some.inj hcw

/-- C3 (amended): after any sequence of successful in-bounds pushes none of
which overwrites one non-empty color with the other non-empty color (the
defect path: it leaves the old color's bit set), every cell is Black iff
its black bit is set, White iff its white bit is set, and empty iff both
bits are clear. -/
theorem c3_bitset_consistency (size : Nat) (g : Goban)
    (h : NoRecolorReach (Goban.new size) g) : g.Consistent :=
  (noRecolor_reach_inv h (wf_new size) (cons_new size)).2

/-- C3 witness: consistency of the concrete board `new(2)` after
`push((0,0), Black)`. -/
theorem c3_bitset_consistency_witness : oneBlack2.Consistent :=
  c3_bitset_consistency 2 oneBlack2
    (NoRecolorReach.step (0, 0) Color.black (NoRecolorReach.refl _) pushB2
      (Or.inr (Or.inl rfl)))

/-- C4, counterexample to the claim as stated: on a (reachable) board whose
intersection (0,0) holds White, `push((0,0), Black)` then `push((0,0), None)`
does not restore the board — the grid ends empty instead of White and the
white occupancy bit is lost (the hash, however, is restored). -/
theorem c4_round_trip_counterexample :
    PushReach (Goban.new 1) oneWhite1 ∧
      oneWhite1.push (0, 0) Color.black = PushOut.ok whiteThenBlack1 ∧
      whiteThenBlack1.push (0, 0) Color.none = PushOut.ok whiteBlackCleared1 ∧
      ¬ whiteBlackCleared1.tab = oneWhite1.tab ∧
      ¬ whiteBlackCleared1.w_stones = oneWhite1.w_stones :=
  ⟨PushReach.step (0, 0) Color.white (PushReach.refl _) pushW1, pushWB1, pushWBN1,
    by decide, by decide⟩

/-- C4 (amended): on any board whose intersection at `c` is empty with both
occupancy bits clear (as bitset consistency guarantees for empty cells),
if `push(c, Black)` and the following `push(c, None)` both succeed (the
clearing push panics on the Zobrist lookup otherwise, and the first one can
panic when the key row for `c` lies outside the fixed 19×19 table), the
round trip restores grid, both bitsets, and hash exactly. -/
theorem c4_clear_round_trip (g : Goban) (p : Nat × Nat) (g₁ g₂ : Goban)
    (hcell : getAt g.tab (g.coordUtil.toIndex p) = some Color.none)
    (hb0 : getAt g.b_stones (g.coordUtil.toIndex p) = some false)
    (hw0 : getAt g.w_stones (g.coordUtil.toIndex p) = some false)
    (h₁ : g.push p Color.black = PushOut.ok g₁)
    (h₂ : g₁.push p Color.none = PushOut.ok g₂) :
    g₂.tab = g.tab ∧ g₂.b_stones = g.b_stones ∧ g₂.w_stones = g.w_stones ∧
      g₂.hash = g.hash := by
  obtain ⟨hv, b', tab', k, hb, hk, ht, hge⟩ := push_ok_black h₁
  subst hge
  obtain ⟨hv2, b₂, w₂, old, k₂, tab₂, hb₂, hw₂, hold₂, hk₂, ht₂, hge₂⟩ :=
    push_ok_none h₂
  subst hge₂
  have hb₂' : setAt b' (g.coordUtil.toIndex p) false = some b₂ := hb₂
  have hw₂' : setAt g.w_stones (g.coordUtil.toIndex p) false = some w₂ := hw₂
  have hold₂' : getAt tab' (g.coordUtil.toIndex p) = some old := hold₂
  have hk₂' : zobristLookup g.zobrist p old = some k₂ := hk₂
  have ht₂' : setAt tab' (g.coordUtil.toIndex p) Color.none = some tab₂ := ht₂
  obtain rfl : Color.black = old :=
    Option.some.inj ((getAt_setAt_self ht).symm.trans hold₂')
  obtain rfl : k = k₂ := Option.some.inj (hk.symm.trans hk₂')
  refine ⟨?_, ?_, ?_, ?_⟩
  · show tab₂ = g.tab
    have : setAt tab' (g.coordUtil.toIndex p) Color.none = some g.tab := by
      rw [setAt_setAt ht]
      exact setAt_of_getAt hcell
    exact Option.some.inj (ht₂'.symm.trans this)
  · show b₂ = g.b_stones
    have : setAt b' (g.coordUtil.toIndex p) false = some g.b_stones := by
      rw [setAt_setAt hb]
      exact setAt_of_getAt hb0
    exact Option.some.inj (hb₂'.symm.trans this)
  · show w₂ = g.w_stones
    exact Option.some.inj (hw₂'.symm.trans (setAt_of_getAt hw0))
  · show g.hash ^^^ k ^^^ k = g.hash
    rw [Nat.xor_assoc, Nat.xor_self, Nat.xor_zero]

/-- C4 witness: the round trip at (0,0) on `new(2)`. -/
theorem c4_clear_round_trip_witness :
    blackCleared2.tab = (Goban.new 2).tab ∧
      blackCleared2.b_stones = (Goban.new 2).b_stones ∧
      blackCleared2.w_stones = (Goban.new 2).w_stones ∧
      blackCleared2.hash = (Goban.new 2).hash :=
  c4_clear_round_trip (Goban.new 2) (0, 0) oneBlack2 blackCleared2 rfl rfl rfl
    pushB2 pushB2N

/-- C6: the `PartialEq` impl compares only the hashes — two boards compare
equal exactly when their hash fields agree, whatever their grids, bitsets,
or sizes. -/
theorem c6_eq_iff_hash (a b : Goban) : gobanBEq a b = true ↔ a.hash = b.hash := by
  rw [gobanBEq, beq_iff_eq]
  exact eq_comm

/-- C7: table construction is deterministic — any two tables produced by
`ZobristTable::new(n)` agree on the key of every coordinate of the n×n grid
for every non-empty color (and that key lookup succeeds).  In this pure
embedding the generator is seeded by the fixed constant `SEED` and takes no
other input, so two constructions are literally the same value. -/
theorem c7_table_deterministic (n : Nat) (t₁ t₂ : ZobristTable)
    (h₁ : ZobristTable.new n = some t₁) (h₂ : ZobristTable.new n = some t₂)
    (x y : Nat) (c : Color) (hx : x < n) (hy : y < n) (hc : ¬ c = Color.none) :
    zobristLookup t₁ (x, y) c = zobristLookup t₂ (x, y) c ∧
      (zobristLookup t₁ (x, y) c).isSome := by
  obtain rfl : t₁ = t₂ := Option.some.inj (h₁.symm.trans h₂)
  exact ⟨rfl, lookup_isSome h₁ hx hy hc⟩

/-- C7 witness: the dimension-1 table, at ((0,0), Black). -/
theorem c7_table_deterministic_witness :
    zobristLookup ztOne (0, 0) Color.black = zobristLookup ztOne (0, 0) Color.black ∧
      (zobristLookup ztOne (0, 0) Color.black).isSome := by
  have h : ZobristTable.new 1 = some ztOne := by
    obtain ⟨t, ht, _, _, _⟩ := new_some_of_le (show 1 ≤ 19 by omega)
    rw [ztOne, ht]
    rfl
  exact c7_table_deterministic 1 ztOne ztOne h h 0 0 Color.black (by decide)
    (by decide) (by decide)

/-- C8, counterexample to the claim as stated: clearing the empty
intersection (0,0) of a fresh 1×1 board panics — the Zobrist lookup for
(point, None) computes row entry `(0 as u8 - 1) as usize`, which wraps to
255, out of bounds of the 2-entry row. -/
theorem c8_push_none_counterexample :
    (Goban.new 1).push (0, 0) Color.none = PushOut.panicked := by
  refine push_none_panicked (by decide) (fun old hold => ?_)
  rw [show getAt (Goban.new 1).tab ((Goban.new 1).coordUtil.toIndex (0, 0)) =
    some Color.none from rfl] at hold
  obtain rfl : Color.none = old := Option.some.inj hold
  exact lookup_color_none zobrist19_shape

/-- C8 (amended): `push(c, None)` on an in-bounds, currently empty
intersection of a board holding the process-wide table does not complete:
the Zobrist key lookup for (c, None) wraps the color discriminant to row
entry 255, out of bounds of the 2-entry row, so the call panics (the
update is aborted, not applied). -/
theorem c8_push_none_empty_panics (g : Goban) (p : Nat × Nat)
    (hz : g.zobrist = ZOBRIST19)
    (hcell : getAt g.tab (g.coordUtil.toIndex p) = some Color.none)
    (hv : g.coordValid p = true) :
    g.push p Color.none = PushOut.panicked := by
  refine push_none_panicked hv (fun old hold => ?_)
  rw [hcell] at hold
  obtain rfl : Color.none = old := Option.some.inj hold
  rw [hz]
  exact lookup_color_none zobrist19_shape

/-- C8 witness: `push((0,0), None)` on the empty cell (0,0) of `new(2)`
panics. -/
theorem c8_push_none_empty_panics_witness :
    getAt (Goban.new 2).tab ((Goban.new 2).coordUtil.toIndex (0, 0)) =
      some Color.none ∧
      (Goban.new 2).push (0, 0) Color.none = PushOut.panicked :=
  ⟨rfl, c8_push_none_empty_panics (Goban.new 2) (0, 0) rfl rfl (by decide)⟩

/-- C9: `ZobristTable::new` always works over the fixed 19×19×2 allocation —
any successfully built table has exactly 19*19 rows of 2 keys; construction
succeeds for every n ≤ 19 and every in-grid lookup with a non-empty color
is in bounds, while for n > 19 the fill loop indexes out of range and
panics; every `Goban`, whatever its size, references the process-wide
dimension-19 singleton, and `push` never changes that reference. -/
theorem c9_fixed_table :
    (∀ n t, ZobristTable.new n = some t →
      t.hashes.length = 19 * 19 ∧ (∀ i r, getAt t.hashes i = some r → r.length = 2)) ∧
    (∀ n, n ≤ 19 → (ZobristTable.new n).isSome) ∧
    (∀ n t x y c, ZobristTable.new n = some t → x < n → y < n →
      ¬ c = Color.none → (zobristLookup t (x, y) c).isSome) ∧
    (∀ n, 19 < n → ZobristTable.new n = Option.none) ∧
    (∀ size, (Goban.new size).zobrist = ZOBRIST19) ∧ ZOBRIST19.n = 19 ∧
    (∀ g p c g', Goban.push g p c = PushOut.ok g' → g'.zobrist = g.zobrist) := by
  refine ⟨fun n t ht => ⟨(new_inv ht).2.1, (new_inv ht).2.2⟩,
    fun n hn => ?_,
    fun n t x y c ht hx hy hc => lookup_isSome ht hx hy hc,
    fun n hn => new_none_of_gt hn,
    fun size => rfl,
    zobrist19_n,
    fun g p c g' hok => (push_ok_fields hok).2.2⟩
  obtain ⟨t, ht, _, _, _⟩ := new_some_of_le hn
  rw [ht]
  rfl

/-- C9 witness: the singleton's allocation, a successful and a failing
construction, an in-bounds corner lookup, and the table reference of a
size-5 board. -/
theorem c9_fixed_table_witness :
    ZOBRIST19.hashes.length = 19 * 19 ∧ (ZobristTable.new 19).isSome ∧
      (zobristLookup ZOBRIST19 (18, 18) Color.white).isSome ∧
      ZobristTable.new 20 = Option.none ∧ (Goban.new 5).zobrist = ZOBRIST19 := by
  obtain ⟨hA, hB, hC, hD, hE, hF, hG⟩ := c9_fixed_table
  exact ⟨(hA 19 ZOBRIST19 zobrist19_eq).1, hB 19 (by decide),
    hC 19 ZOBRIST19 18 18 Color.white zobrist19_eq (by decide) (by decide)
      (by decide),
    hD 20 (by decide), hE 5⟩

/-- C10: `raw_string` and `pretty_string` run the identical loop despite
their doc comments claiming different orientations, so they agree character
for character on every board, and `Display` renders exactly
`pretty_string`. -/
theorem c10_render_strings_equal (g : Goban) :
    g.rawString = g.prettyString ∧ g.displayString = g.prettyString :=
  ⟨rfl, rfl⟩

theorem log2F_spec : ∀ (fuel n : Nat), n ≤ fuel → 1 ≤ n →
    2 ^ log2F fuel n ≤ n ∧ n < 2 ^ (log2F fuel n + 1) := by
  intro fuel
  induction fuel with
  | zero => intro n hn h1; omega
  | succ f ih =>
    intro n hn h1
    by_cases h2 : 2 ≤ n
    · obtain ⟨hl, hr⟩ := ih (n / 2) (by omega) (by omega)
      rw [show log2F (f + 1) n = log2F f (n / 2) + 1 from by simp [log2F, h2]]
      constructor
      · rw [pow_succ]
        omega
      · rw [pow_succ]
        omega
    · rw [show log2F (f + 1) n = 0 from by simp [log2F, h2]]
      simp
      omega

theorem nlog2_spec (n : Nat) (h1 : 1 ≤ n) :
    2 ^ nlog2 n ≤ n ∧ n < 2 ^ (nlog2 n + 1) :=
  log2F_spec n n (Nat.le_refl n) h1

theorem nlog2_eq_of {n k : Nat} (hl : 2 ^ k ≤ n) (hr : n < 2 ^ (k + 1)) :
    nlog2 n = k := by
  have h1 : 1 ≤ n := Nat.le_trans (Nat.one_le_pow k 2 (by omega)) hl
  obtain ⟨h2, h3⟩ := nlog2_spec n h1
  have a1 : nlog2 n < k + 1 :=
    (Nat.pow_lt_pow_iff_right (by omega)).mp (Nat.lt_of_le_of_lt h2 hr)
  have a2 : k < nlog2 n + 1 :=
    (Nat.pow_lt_pow_iff_right (by omega)).mp (Nat.lt_of_le_of_lt hl h3)
  omega

theorem isqrtF_spec : ∀ (fuel n : Nat), n ≤ fuel →
    isqrtF fuel n * isqrtF fuel n ≤ n ∧
      n < (isqrtF fuel n + 1) * (isqrtF fuel n + 1) := by
  intro fuel
  induction fuel with
  | zero =>
    intro n hn
    have h0 : n = 0 := by omega
    subst h0
    simp [isqrtF]
  | succ f ih =>
    intro n hn
    by_cases h0 : n = 0
    · subst h0
      simp [isqrtF]
    · obtain ⟨hl, hr⟩ := ih (n / 4) (by omega)
      rw [show isqrtF (f + 1) n =
          (if (2 * isqrtF f (n / 4) + 1) * (2 * isqrtF f (n / 4) + 1) ≤ n
            then 2 * isqrtF f (n / 4) + 1 else 2 * isqrtF f (n / 4)) from by
        simp [isqrtF, h0]]
      set s := isqrtF f (n / 4) with hs
      have e1 : (2 * s + 2) * (2 * s + 2) = 4 * ((s + 1) * (s + 1)) := by ring
      have e2 : (s + 1) * (s + 1) = s * s + 2 * s + 1 := by ring
      have e3 : (2 * s + 1) * (2 * s + 1) = 4 * (s * s) + 4 * s + 1 := by ring
      have e4 : 2 * s * (2 * s) = 4 * (s * s) := by ring
      by_cases hc : (2 * s + 1) * (2 * s + 1) ≤ n
      · rw [if_pos hc]
        constructor
        · exact hc
        · rw [show (2 * s + 1 + 1) * (2 * s + 1 + 1) = (2 * s + 2) * (2 * s + 2) from by
            ring]
          omega
      · rw [if_neg hc]
        constructor
        · omega
        · omega

theorem isqrt_spec (n : Nat) :
    isqrt n * isqrt n ≤ n ∧ n < (isqrt n + 1) * (isqrt n + 1) :=
  isqrtF_spec n n (Nat.le_refl n)

theorem isqrt_eq_of {n m : Nat} (hl : m * m ≤ n) (hr : n < (m + 1) * (m + 1)) :
    isqrt n = m := by
  obtain ⟨h2, h3⟩ := isqrt_spec n
  by_cases h : isqrt n < m
  · have : isqrt n + 1 ≤ m := h
    have := Nat.mul_le_mul this this
    omega
  · by_cases h' : m < isqrt n
    · have : m + 1 ≤ isqrt n := h'
      have := Nat.mul_le_mul this this
      omega
    · omega

theorem rneSqrt_one_eq {p M : Nat} (hM : 1 ≤ M)
    (hlo : (2 * M - 1) * (2 * M - 1) < 4 * p)
    (hhi : 4 * p < (2 * M + 1) * (2 * M + 1)) :
    rneSqrt p 1 = M := by
  have hm0 : isqrt (p * 1) / 1 = isqrt p := by
    rw [Nat.mul_one, Nat.div_one]
  obtain ⟨h2, h3⟩ := isqrt_spec p
  set m0 := isqrt p with hdef
  have hle : m0 ≤ M := by
    by_contra hcon
    have h4 : M + 1 ≤ m0 := by omega
    have h5 := Nat.mul_le_mul h4 h4
    have e : (2 * M + 1) * (2 * M + 1) < 4 * ((M + 1) * (M + 1)) := by
      have : (2 * M + 1) * (2 * M + 1) = 4 * (M * M) + 4 * M + 1 := by ring
      have : 4 * ((M + 1) * (M + 1)) = 4 * (M * M) + 8 * M + 4 := by ring
      omega
    omega
  have hge : M ≤ m0 + 1 := by
    by_contra hcon
    have h4 : m0 + 2 ≤ M := by omega
    have h5 : 2 * m0 + 2 ≤ 2 * M - 1 := by omega
    have h6 := Nat.mul_le_mul h5 h5
    have e : 4 * ((m0 + 1) * (m0 + 1)) = (2 * m0 + 2) * (2 * m0 + 2) := by ring
    omega
  rw [rneSqrt, hm0]
  by_cases hm : m0 = M
  · subst hm
    rw [if_neg (by omega), if_pos (by omega)]
  · have hm' : m0 + 1 = M := by omega
    have e : 2 * (m0 + 1) - 1 = 2 * m0 + 1 := by omega
    rw [← hm', e] at hlo
    rw [← hm'] at hhi ⊢
    have e2 : 2 * (m0 + 1) + 1 = 2 * m0 + 3 := by omega
    rw [e2] at hhi
    rw [if_pos (by omega)]

theorem f32OfNat_lt {n : Nat} (h : n < 2 ^ 24) : f32OfNat n = n := by
  rw [f32OfNat, if_pos h]

theorem f32OfNat_ge {n : Nat} (h : 2 ^ 24 ≤ n) :
    f32OfNat n =
      (if 2 ^ (nlog2 n - 23 - 1) < n % 2 ^ (nlog2 n - 23) ∨
          (n % 2 ^ (nlog2 n - 23) = 2 ^ (nlog2 n - 23 - 1) ∧
            (n / 2 ^ (nlog2 n - 23)) % 2 = 1)
        then (n / 2 ^ (nlog2 n - 23) + 1) * 2 ^ (nlog2 n - 23)
        else n / 2 ^ (nlog2 n - 23) * 2 ^ (nlog2 n - 23)) := by
  rw [f32OfNat, if_neg (by omega)]

theorem nlog2_ge_24 {n : Nat} (h : 2 ^ 24 ≤ n) : 24 ≤ nlog2 n := by
  obtain ⟨h2, h3⟩ := nlog2_spec n (by omega)
  have := (Nat.pow_lt_pow_iff_right (show 1 < 2 by omega)).mp (Nat.lt_of_le_of_lt h h3)
  omega

theorem f32OfNat_err {n : Nat} (h : 2 ^ 24 ≤ n) :
    n ≤ f32OfNat n + 2 ^ (nlog2 n - 23 - 1) ∧
      f32OfNat n ≤ n + 2 ^ (nlog2 n - 23 - 1) := by
  rw [f32OfNat_ge h]
  have he1 : 1 ≤ nlog2 n - 23 := by
    have := nlog2_ge_24 h
    omega
  have hpos : 0 < 2 ^ (nlog2 n - 23) := Nat.one_le_pow _ _ (by omega)
  have hdm := Nat.div_add_mod n (2 ^ (nlog2 n - 23))
  have hmlt : n % 2 ^ (nlog2 n - 23) < 2 ^ (nlog2 n - 23) := Nat.mod_lt _ hpos
  have hee : 2 ^ (nlog2 n - 23) = 2 * 2 ^ (nlog2 n - 23 - 1) := by
    rw [← pow_succ']
    congr 1
    omega
  have c1 : (n / 2 ^ (nlog2 n - 23) + 1) * 2 ^ (nlog2 n - 23) =
      2 ^ (nlog2 n - 23) * (n / 2 ^ (nlog2 n - 23)) + 2 ^ (nlog2 n - 23) := by ring
  have c2 : n / 2 ^ (nlog2 n - 23) * 2 ^ (nlog2 n - 23) =
      2 ^ (nlog2 n - 23) * (n / 2 ^ (nlog2 n - 23)) := by ring
  by_cases hc : 2 ^ (nlog2 n - 23 - 1) < n % 2 ^ (nlog2 n - 23) ∨
      (n % 2 ^ (nlog2 n - 23) = 2 ^ (nlog2 n - 23 - 1) ∧
        (n / 2 ^ (nlog2 n - 23)) % 2 = 1)
  · rw [if_pos hc]
    rcases hc with h' | ⟨h', _⟩ <;> omega
  · rw [if_neg hc]
    rw [not_or] at hc
    obtain ⟨hc1, _⟩ := hc
    omega

theorem f32OfNat_exact_of_dvd {n : Nat} (h : 2 ^ 24 ≤ n)
    (hd : 2 ^ (nlog2 n - 23) ∣ n) : f32OfNat n = n := by
  rw [f32OfNat_ge h]
  have hr : n % 2 ^ (nlog2 n - 23) = 0 := Nat.mod_eq_zero_of_dvd hd
  have he1 : 1 ≤ nlog2 n - 23 := by
    have := nlog2_ge_24 h
    omega
  have hp : 0 < 2 ^ (nlog2 n - 23 - 1) := Nat.one_le_pow _ _ (by omega)
  rw [hr, if_neg (by omega)]
  exact Nat.div_mul_cancel hd

theorem f32Sqrt_pos {v : Nat} (h : ¬ v = 0) :
    f32Sqrt v =
      (if 2 * (nlog2 v / 2) ≤ 46 then
        (rneSqrt (v * 2 ^ (46 - 2 * (nlog2 v / 2))) 1, nlog2 v / 2)
      else (rneSqrt v (2 ^ (2 * (nlog2 v / 2) - 46)), nlog2 v / 2)) := by
  rw [f32Sqrt, if_neg h]

theorem nlog2_div2_eq {v k : Nat} (h1 : 2 ^ (2 * k) ≤ v) (h2 : v < 2 ^ (2 * k + 2)) :
    nlog2 v / 2 = k := by
  have hv1 : 1 ≤ v := Nat.le_trans (Nat.one_le_pow _ _ (by omega)) h1
  obtain ⟨hs1, hs2⟩ := nlog2_spec v hv1
  have ha : 2 * k < nlog2 v + 1 :=
    (Nat.pow_lt_pow_iff_right (show 1 < 2 by omega)).mp (Nat.lt_of_le_of_lt h1 hs2)
  have hb : nlog2 v < 2 * k + 2 :=
    (Nat.pow_lt_pow_iff_right (show 1 < 2 by omega)).mp (Nat.lt_of_le_of_lt hs1 h2)
  omega

theorem sizeOf_tail {v s k : Nat} (hk : k ≤ 23) (hv0 : ¬ v = 0)
    (hkp : nlog2 v / 2 = k)
    (hrne : rneSqrt (v * 2 ^ (46 - 2 * k)) 1 = s * 2 ^ (23 - k)) :
    f32SqrtTrunc (f32Sqrt v) = s := by
  rw [f32Sqrt_pos hv0, hkp, if_pos (by omega), hrne, f32SqrtTrunc]
  by_cases h23 : 23 ≤ k
  · have hk23 : k = 23 := by omega
    subst hk23
    rw [if_pos (by omega)]
    simp
  · rw [if_neg h23]
    exact Nat.mul_div_cancel _ (Nat.one_le_pow _ _ (by omega))

theorem rneSqrt_perfect {M : Nat} (hM : 1 ≤ M) : rneSqrt (M * M) 1 = M := by
  apply rneSqrt_one_eq hM
  · obtain ⟨W, rfl⟩ : ∃ W, M = W + 1 := ⟨M - 1, by omega⟩
    have e : 2 * (W + 1) - 1 = 2 * W + 1 := by omega
    rw [e]
    have e2 : (2 * W + 1) * (2 * W + 1) = 4 * (W * W) + 4 * W + 1 := by ring
    have e3 : 4 * ((W + 1) * (W + 1)) = 4 * (W * W) + 8 * W + 4 := by ring
    omega
  · have e2 : (2 * M + 1) * (2 * M + 1) = 4 * (M * M) + 4 * M + 1 := by ring
    omega

theorem sizeOf_exact {s k : Nat} (h1 : 1 ≤ s) (hk23 : k ≤ 23)
    (hsq1 : 2 ^ (2 * k) ≤ s * s) (hsq2 : s * s < 2 ^ (2 * k + 2)) :
    f32SqrtTrunc (f32Sqrt (s * s)) = s := by
  have hv0 : ¬ s * s = 0 := by
    have := Nat.one_le_pow (2 * k) 2 (by omega)
    omega
  apply sizeOf_tail hk23 hv0 (nlog2_div2_eq hsq1 hsq2)
  have hps : s * s * 2 ^ (46 - 2 * k) = s * 2 ^ (23 - k) * (s * 2 ^ (23 - k)) := by
    have h2 : 2 ^ (46 - 2 * k) = 2 ^ (23 - k) * 2 ^ (23 - k) := by
      rw [← pow_add]
      congr 1
      omega
    rw [h2]
    ring
  rw [hps]
  exact rneSqrt_perfect (Nat.mul_pos h1 (Nat.one_le_pow _ _ (by omega)))

theorem f32SizeOfLen_square {s : Nat} (hs : s ≤ 2 ^ 24) :
    f32SizeOfLen (s * s) = s := by
  by_cases h0 : s = 0
  · subst h0
    decide
  by_cases htop : s = 2 ^ 24
  · subst htop
    decide
  have h1 : 1 ≤ s := by omega
  obtain ⟨hk1, hk2⟩ := nlog2_spec s h1
  have hk23 : nlog2 s ≤ 23 := by
    have hlt : (2 : Nat) ^ nlog2 s < 2 ^ 24 := Nat.lt_of_le_of_lt hk1 (by omega)
    have := (Nat.pow_lt_pow_iff_right (show 1 < 2 by omega)).mp hlt
    omega
  set k := nlog2 s with hkdef
  have hpk : 2 ^ (2 * k) = 2 ^ k * 2 ^ k := by
    rw [← pow_add]
    congr 1
    omega
  have hpk2 : 2 ^ (2 * k + 2) = 2 ^ (k + 1) * 2 ^ (k + 1) := by
    rw [← pow_add]
    congr 1
    omega
  have hsq1 : 2 ^ (2 * k) ≤ s * s := by
    rw [hpk]
    exact Nat.mul_le_mul hk1 hk1
  have hsq2 : s * s < 2 ^ (2 * k + 2) := by
    rw [hpk2]
    exact mul_lt_mul'' hk2 hk2 (Nat.zero_le _) (Nat.zero_le _)
  simp only [f32SizeOfLen]
  by_cases hveq : f32OfNat (s * s) = s * s
  · rw [hveq]
    exact sizeOf_exact h1 hk23 hsq1 hsq2
  have hbig : 2 ^ 24 ≤ s * s := by
    by_contra hsmall
    exact hveq (f32OfNat_lt (by omega))
  have hk12ge : 12 ≤ k := by
    have ha : (2 : Nat) ^ 24 < 2 ^ (2 * k + 2) := Nat.lt_of_le_of_lt hbig hsq2
    have := (Nat.pow_lt_pow_iff_right (show 1 < 2 by omega)).mp ha
    omega
  have hL : 2 * k ≤ nlog2 (s * s) ∧ nlog2 (s * s) ≤ 2 * k + 1 := by
    obtain ⟨a1, a2⟩ := nlog2_spec (s * s) (by omega)
    constructor
    · have := (Nat.pow_lt_pow_iff_right (show 1 < 2 by omega)).mp (Nat.lt_of_le_of_lt hsq1 a2)
      omega
    · have := (Nat.pow_lt_pow_iff_right (show 1 < 2 by omega)).mp (Nat.lt_of_le_of_lt a1 hsq2)
      omega
  obtain ⟨e1, e2⟩ := f32OfNat_err hbig
  have hDle : 2 ^ (nlog2 (s * s) - 23 - 1) ≤ 2 ^ (2 * k - 23) :=
    Nat.pow_le_pow_right (by omega) (by omega)
  set v := f32OfNat (s * s) with hvdef
  have hverr1 : s * s ≤ v + 2 ^ (2 * k - 23) := by omega
  have hverr2 : v ≤ s * s + 2 ^ (2 * k - 23) := by omega
  have hspow : ¬ s = 2 ^ k := by
    intro hsp
    apply hveq
    apply f32OfNat_exact_of_dvd hbig
    have hss : s * s = 2 ^ (2 * k) := by rw [hsp, hpk]
    rw [hss]
    have hnl : nlog2 (2 ^ (2 * k)) = 2 * k :=
      nlog2_eq_of (Nat.le_refl _) ((Nat.pow_lt_pow_iff_right (show 1 < 2 by omega)).mpr (by omega))
    rw [hnl]
    exact pow_dvd_pow 2 (by omega)
  have hsge : 2 ^ k + 1 ≤ s := by omega
  have hd1 : 2 ^ (2 * k - 23) ≤ 2 ^ (k + 1) := Nat.pow_le_pow_right (by omega) (by omega)
  have hsq1' : 2 ^ (2 * k) + 2 ^ (k + 1) + 1 ≤ s * s := by
    have hm := Nat.mul_le_mul hsge hsge
    have ea : (2 ^ k + 1) * (2 ^ k + 1) = 2 ^ k * 2 ^ k + 2 * 2 ^ k + 1 := by ring
    have eb : 2 ^ (k + 1) = 2 * 2 ^ k := by
      rw [pow_succ]
      ring
    omega
  have hvlo : 2 ^ (2 * k) ≤ v := by omega
  have hvhi : v < 2 ^ (2 * k + 2) := by
    have h4 : (s + 1) * (s + 1) ≤ 2 ^ (k + 1) * 2 ^ (k + 1) :=
      Nat.mul_le_mul (by omega) (by omega)
    have ea : (s + 1) * (s + 1) = s * s + 2 * s + 1 := by ring
    have eb : 2 ^ (k + 1) = 2 * 2 ^ k := by
      rw [pow_succ]
      ring
    omega
  have hv0 : ¬ v = 0 := by
    have := Nat.one_le_pow (2 * k) 2 (by omega)
    omega
  apply sizeOf_tail hk23 hv0 (nlog2_div2_eq hvlo hvhi)
  set T := 2 ^ (23 - k) with hT
  have hT1 : 1 ≤ T := Nat.one_le_pow _ _ (by omega)
  have hTT : 2 ^ (46 - 2 * k) = T * T := by
    rw [hT, ← pow_add]
    congr 1
    omega
  have hTD : 2 ^ (2 * k - 23) * (T * T) = 2 ^ 23 := by
    rw [hT, ← pow_add, ← pow_add]
    congr 1
    omega
  have hkT : 2 ^ k * T = 2 ^ 23 := by
    rw [hT, ← pow_add]
    congr 1
    omega
  rw [hTT]
  apply rneSqrt_one_eq (show 1 ≤ s * T from Nat.mul_pos h1 hT1)
  · have key1 : 4 * (s * s * (T * T)) ≤ 4 * (v * (T * T)) + 2 ^ 25 := by
      have hm := Nat.mul_le_mul_right (T * T) hverr1
      have ea : (v + 2 ^ (2 * k - 23)) * (T * T) =
          v * (T * T) + 2 ^ (2 * k - 23) * (T * T) := by ring
      have e25 : (2 : Nat) ^ 25 = 4 * 2 ^ 23 := by norm_num
      omega
    have key2 : 2 ^ 25 + 4 ≤ 4 * (s * T) := by
      have hm := Nat.mul_le_mul_right T hsge
      have ea : (2 ^ k + 1) * T = 2 ^ k * T + T := by ring
      have e25 : (2 : Nat) ^ 25 = 4 * 2 ^ 23 := by norm_num
      omega
    obtain ⟨W, hW⟩ : ∃ W, s * T = W + 1 := ⟨s * T - 1, by
      have := Nat.mul_pos h1 hT1
      omega⟩
    rw [hW]
    have ea : 2 * (W + 1) - 1 = 2 * W + 1 := by omega
    rw [ea]
    have eb : (2 * W + 1) * (2 * W + 1) = 4 * (W * W) + 4 * W + 1 := by ring
    have ec : (W + 1) * (W + 1) = W * W + 2 * W + 1 := by ring
    have ed : (W + 1) * (W + 1) = s * s * (T * T) := by
      rw [← hW]
      ring
    omega
  · have key1 : 4 * (v * (T * T)) ≤ 4 * (s * s * (T * T)) + 2 ^ 25 := by
      have hm := Nat.mul_le_mul_right (T * T) hverr2
      have ea : (s * s + 2 ^ (2 * k - 23)) * (T * T) =
          s * s * (T * T) + 2 ^ (2 * k - 23) * (T * T) := by ring
      have e25 : (2 : Nat) ^ 25 = 4 * 2 ^ 23 := by norm_num
      omega
    have key2 : 2 ^ 25 + 4 ≤ 4 * (s * T) := by
      have hm := Nat.mul_le_mul_right T hsge
      have ea : (2 ^ k + 1) * T = 2 ^ k * T + T := by ring
      have e25 : (2 : Nat) ^ 25 = 4 * 2 ^ 23 := by norm_num
      omega
    have eb : (2 * (s * T) + 1) * (2 * (s * T) + 1) =
        4 * (s * T * (s * T)) + 4 * (s * T) + 1 := by ring
    have ec : s * T * (s * T) = s * s * (T * T) := by ring
    omega

theorem lookup_none_of_ge {t : ZobristTable} {p : Nat × Nat} {c : Color}
    (h : t.hashes.length ≤ p.1 * t.n + p.2) :
    zobristLookup t p c = Option.none := by
  rw [zobristLookup, getAt_none_of_ge h]

theorem lookup_isSome_of_row_lt {t : ZobristTable} {p : Nat × Nat} {c : Color}
    (hlen : t.hashes.length = 19 * 19)
    (hshape : ∀ i r, getAt t.hashes i = some r → r.length = 2)
    (hrow : p.1 * t.n + p.2 < 19 * 19)
    (hc : ¬ c = Color.none) : (zobristLookup t p c).isSome := by
  obtain ⟨row, hr⟩ := getAt_of_lt (l := t.hashes) (i := p.1 * t.n + p.2) (by omega)
  rw [zobristLookup, hr]
  have hrl := hshape _ _ hr
  cases c with
  | none => exact absurd rfl hc
  | black =>
    obtain ⟨a, ha⟩ := getAt_of_lt (l := row) (i := (Color.black.discr + 255) % 256)
      (by rw [hrl]; decide)
    simp [ha]
  | white =>
    obtain ⟨a, ha⟩ := getAt_of_lt (l := row) (i := (Color.white.discr + 255) % 256)
      (by rw [hrl]; decide)
    simp [ha]

theorem push_panicked_of_lookup_none {g : Goban} {p : Nat × Nat} {c : Color}
    (hv : g.coordValid p = true) (hc : ¬ c = Color.none)
    (hib : g.coordUtil.toIndex p < g.b_stones.length)
    (hiw : g.coordUtil.toIndex p < g.w_stones.length)
    (hk : zobristLookup g.zobrist p c = Option.none) :
    g.push p c = PushOut.panicked := by
  rw [Goban.push]
  simp only [hv, if_true]
  cases c with
  | none => exact absurd rfl hc
  | black =>
    obtain ⟨b', hb⟩ := setAt_some_of_lt true hib
    simp [hb, hk]
  | white =>
    obtain ⟨w', hw⟩ := setAt_some_of_lt true hiw
    simp [hw, hk]

theorem from_arrayPush_cons_none {cu : CoordUtil} {g : Goban} {k : Nat}
    {rest : List (Nat × Color)} :
    from_arrayPush cu g ((k, Color.none) :: rest) = from_arrayPush cu g rest := by
  simp [from_arrayPush]

theorem from_arrayPush_cons_ok {cu : CoordUtil} {g g' : Goban} {k : Nat} {c : Color}
    {rest : List (Nat × Color)} (hc : ¬ c = Color.none)
    (hp : g.push (cu.fromIndex k) c = PushOut.ok g') :
    from_arrayPush cu g ((k, c) :: rest) = from_arrayPush cu g' rest := by
  rw [from_arrayPush, if_neg hc, hp]

theorem from_arrayPush_cons_panic {cu : CoordUtil} {g : Goban} {k : Nat} {c : Color}
    {rest : List (Nat × Color)} (hc : ¬ c = Color.none)
    (hp : g.push (cu.fromIndex k) c = PushOut.panicked) :
    from_arrayPush cu g ((k, c) :: rest) = Option.none := by
  rw [from_arrayPush, if_neg hc, hp]

theorem from_arrayPush_skip_replicate (cu : CoordUtil) :
    ∀ (m : Nat) (g : Goban) (t : Nat) (rest : List Color),
      from_arrayPush cu g (List.enumFrom t (List.replicate m Color.none ++ rest)) =
        from_arrayPush cu g (List.enumFrom (t + m) rest)
  | 0, g, t, rest => by simp
  | m + 1, g, t, rest => by
    rw [List.replicate_succ, List.cons_append]
    show from_arrayPush cu g ((t, Color.none) :: List.enumFrom (t + 1)
      (List.replicate m Color.none ++ rest)) = _
    rw [from_arrayPush_cons_none,
      from_arrayPush_skip_replicate cu m g (t + 1) rest]
    have e : t + 1 + m = t + (m + 1) := by omega
    rw [e]

theorem fromIndex_comp_lt {s : Nat} {order : Order} {k : Nat} (hk : k < s * s) :
    ((CoordUtil.newOrder s s order).fromIndex k).1 < s ∧
      ((CoordUtil.newOrder s s order).fromIndex k).2 < s := by
  have hs : 0 < s := by
    by_contra h0
    have : s = 0 := by omega
    subst this
    simp at hk
  cases order with
  | rowMajor =>
    constructor
    · show k / s < s
      exact Nat.div_lt_of_lt_mul hk
    · show k % s < s
      exact Nat.mod_lt _ hs
  | columnMajor =>
    constructor
    · show k % s < s
      exact Nat.mod_lt _ hs
    · show k / s < s
      exact Nat.div_lt_of_lt_mul hk

theorem sigmaIdx_rowMajor {s k : Nat} (hk : k < s * s) :
    sigmaIdx s Order.rowMajor k = k := by
  have hs : 0 < s := by
    by_contra h0
    have : s = 0 := by omega
    subst this
    simp at hk
  show k / s * s + k % s = k
  have h1 := Nat.div_add_mod k s
  have h2 : k / s * s = s * (k / s) := Nat.mul_comm _ _
  omega

theorem sigmaIdx_columnMajor {s k : Nat} :
    sigmaIdx s Order.columnMajor k = k % s * s + k / s := rfl

theorem sigmaIdx_lt {s : Nat} {order : Order} {k : Nat} (hk : k < s * s) :
    sigmaIdx s order k < s * s := by
  obtain ⟨h1, h2⟩ := @fromIndex_comp_lt s order k hk
  exact toIndex_lt h1 h2

theorem sigmaIdx_inj {s : Nat} {order : Order} {k k' : Nat}
    (hk : k < s * s) (hk' : k' < s * s)
    (h : sigmaIdx s order k = sigmaIdx s order k') : k = k' := by
  cases order with
  | rowMajor =>
    rw [sigmaIdx_rowMajor hk, sigmaIdx_rowMajor hk'] at h
    exact h
  | columnMajor =>
    have hs : 0 < s := by
      by_contra h0
      have h00 : s = 0 := by omega
      subst h00
      simp at hk
    rw [sigmaIdx_columnMajor, sigmaIdx_columnMajor] at h
    have hd : k / s < s := Nat.div_lt_of_lt_mul hk
    have hd' : k' / s < s := Nat.div_lt_of_lt_mul hk'
    have hmod : (k % s * s + k / s) % s = k / s := by
      rw [Nat.mul_comm (k % s) s, Nat.mul_add_mod, Nat.mod_eq_of_lt hd]
    have hmod' : (k' % s * s + k' / s) % s = k' / s := by
      rw [Nat.mul_comm (k' % s) s, Nat.mul_add_mod, Nat.mod_eq_of_lt hd']
    have hdiv : (k % s * s + k / s) / s = k % s := by
      rw [Nat.mul_comm (k % s) s, Nat.mul_add_div hs, Nat.div_eq_of_lt hd]
      omega
    have hdiv' : (k' % s * s + k' / s) / s = k' % s := by
      rw [Nat.mul_comm (k' % s) s, Nat.mul_add_div hs, Nat.div_eq_of_lt hd']
      omega
    have e1 : k / s = k' / s := by rw [← hmod, ← hmod', h]
    have e2 : k % s = k' % s := by rw [← hdiv, ← hdiv', h]
    have q1 := Nat.div_add_mod k s
    have q2 := Nat.div_add_mod k' s
    rw [e1, e2] at q1
    omega

theorem push_ok_nonone {g : Goban} {p : Nat × Nat} {c : Color}
    (hc : ¬ c = Color.none) (hv : g.coordValid p = true)
    (hib : g.coordUtil.toIndex p < g.b_stones.length)
    (hiw : g.coordUtil.toIndex p < g.w_stones.length)
    (hit : g.coordUtil.toIndex p < g.tab.length)
    (hlook : (zobristLookup g.zobrist p c).isSome) :
    ∃ g', g.push p c = PushOut.ok g' ∧
      g'.size = g.size ∧ g'.coordUtil = g.coordUtil ∧ g'.zobrist = g.zobrist ∧
      g'.tab.length = g.tab.length ∧ g'.b_stones.length = g.b_stones.length ∧
      g'.w_stones.length = g.w_stones.length ∧
      getAt g'.tab (g.coordUtil.toIndex p) = some c ∧
      (∀ j, ¬ j = g.coordUtil.toIndex p → getAt g'.tab j = getAt g.tab j) := by
  obtain ⟨key, hkey⟩ := Option.isSome_iff_exists.mp hlook
  obtain ⟨tab', htab⟩ := setAt_some_of_lt c hit
  cases c with
  | none => exact absurd rfl hc
  | black =>
    obtain ⟨b', hb⟩ := setAt_some_of_lt true hib
    exact ⟨_, push_black_eq hv hb hkey htab, rfl, rfl, rfl, length_setAt htab,
      length_setAt hb, rfl, getAt_setAt_self htab,
      fun j hj => getAt_setAt_ne htab hj⟩
  | white =>
    obtain ⟨w', hw⟩ := setAt_some_of_lt true hiw
    exact ⟨_, push_white_eq hv hw hkey htab, rfl, rfl, rfl, length_setAt htab,
      rfl, length_setAt hw, getAt_setAt_self htab,
      fun j hj => getAt_setAt_ne htab hj⟩

theorem from_arrayPush_inv {s : Nat} {order : Order} {arr : List Color}
    (hsafe : ∀ k, k < s * s →
      getAt arr k = some Color.none ∨
        ((CoordUtil.newOrder s s order).fromIndex k).1 * 19 +
          ((CoordUtil.newOrder s s order).fromIndex k).2 < 19 * 19) :
    ∀ (rest : List Color) (t : Nat) (g : Goban),
      (∀ j, getAt rest j = getAt arr (t + j)) →
      t + rest.length = s * s →
      BuildInv s order arr t g →
      ∃ g', from_arrayPush (CoordUtil.newOrder s s order) g (List.enumFrom t rest) =
          some g' ∧ BuildInv s order arr (s * s) g'
  | [], t, g, hrest, hcount, hinv => by
    have ht : t = s * s := by simpa using hcount
    subst ht
    exact ⟨g, rfl, hinv⟩
  | c :: rest', t, g, hrest, hcount, hinv => by
    obtain ⟨hsz, hcu, hzo, hlt, hlb, hlw, hocc, hemp⟩ := hinv
    have harrt : getAt arr t = some c := (hrest 0).symm
    have htlt : t < s * s := by
      have hlen : (c :: rest').length = rest'.length + 1 := by simp
      omega
    have hrest' : ∀ j, getAt rest' j = getAt arr (t + 1 + j) := by
      intro j
      have h := hrest (j + 1)
      have e : t + (j + 1) = t + 1 + j := by omega
      rw [e] at h
      exact h
    have hcount' : t + 1 + rest'.length = s * s := by
      have hlen : (c :: rest').length = rest'.length + 1 := by simp
      omega
    by_cases hc : c = Color.none
    · subst hc
      have step : from_arrayPush (CoordUtil.newOrder s s order) g
          (List.enumFrom t (Color.none :: rest')) =
          from_arrayPush (CoordUtil.newOrder s s order) g (List.enumFrom (t + 1) rest') := by
        show from_arrayPush (CoordUtil.newOrder s s order) g
          ((t, Color.none) :: List.enumFrom (t + 1) rest') = _
        exact from_arrayPush_cons_none
      rw [step]
      apply from_arrayPush_inv hsafe rest' (t + 1) g hrest' hcount'
      refine ⟨hsz, hcu, hzo, hlt, hlb, hlw, ?_, ?_⟩
      · intro k ck hk hak hckn
        rcases Nat.lt_or_ge k t with hkt | hkt
        · exact hocc k ck hkt hak hckn
        · have hkeq : k = t := by omega
          subst hkeq
          rw [harrt] at hak
          cases hak
          exact absurd rfl hckn
      · intro j hj hnone
        apply hemp j hj
        intro k ck hk hak hckn
        exact hnone k ck (by omega) hak hckn
    · have hflt := @fromIndex_comp_lt s order t htlt
      obtain ⟨hf1, hf2⟩ := hflt
      have hv : g.coordValid ((CoordUtil.newOrder s s order).fromIndex t) = true := by
        rw [coordValid_iff, hsz]
        exact ⟨hf1, hf2⟩
      have hidx : g.coordUtil.toIndex ((CoordUtil.newOrder s s order).fromIndex t) =
          sigmaIdx s order t := by
        rw [hcu]
        rfl
      have hslt : sigmaIdx s order t < s * s := sigmaIdx_lt htlt
      have hilt : g.coordUtil.toIndex ((CoordUtil.newOrder s s order).fromIndex t) < s * s := by
        rw [hidx]
        exact hslt
      have hrow : ((CoordUtil.newOrder s s order).fromIndex t).1 * 19 +
          ((CoordUtil.newOrder s s order).fromIndex t).2 < 19 * 19 := by
        rcases hsafe t htlt with hnone | hr
        · rw [harrt] at hnone
          cases hnone
          exact absurd rfl hc
        · exact hr
      have hlook : (zobristLookup g.zobrist
          ((CoordUtil.newOrder s s order).fromIndex t) c).isSome := by
        rw [hzo]
        apply lookup_isSome_of_row_lt zobrist19_len zobrist19_shape ?_ hc
        rw [zobrist19_n]
        exact hrow
      obtain ⟨g2, hp, hsz2, hcu2, hzo2, hlt2, hlb2, hlw2, hself, hframe⟩ :=
        push_ok_nonone hc hv (by rw [hlb]; exact hilt) (by rw [hlw]; exact hilt)
          (by rw [hlt]; exact hilt) hlook
      have step : from_arrayPush (CoordUtil.newOrder s s order) g
          (List.enumFrom t (c :: rest')) =
          from_arrayPush (CoordUtil.newOrder s s order) g2 (List.enumFrom (t + 1) rest') := by
        show from_arrayPush (CoordUtil.newOrder s s order) g
          ((t, c) :: List.enumFrom (t + 1) rest') = _
        exact from_arrayPush_cons_ok hc hp
      rw [step]
      apply from_arrayPush_inv hsafe rest' (t + 1) g2 hrest' hcount'
      refine ⟨by rw [hsz2, hsz], by rw [hcu2, hcu], by rw [hzo2, hzo],
        by rw [hlt2, hlt], by rw [hlb2, hlb], by rw [hlw2, hlw], ?_, ?_⟩
      · intro k ck hk hak hckn
        rcases Nat.lt_or_ge k t with hkt | hkt
        · have hne : ¬ sigmaIdx s order k = g.coordUtil.toIndex
              ((CoordUtil.newOrder s s order).fromIndex t) := by
            rw [hidx]
            intro he
            exact absurd (sigmaIdx_inj (by omega) htlt he) (by omega)
          rw [hframe _ hne]
          exact hocc k ck hkt hak hckn
        · have hkeq : k = t := by omega
          subst hkeq
          rw [harrt] at hak
          cases hak
          rw [← hidx]
          exact hself
      · intro j hj hnone
        have hjne : ¬ j = g.coordUtil.toIndex
            ((CoordUtil.newOrder s s order).fromIndex t) := by
          rw [hidx]
          intro he
          exact absurd he.symm (hnone t c (by omega) harrt hc)
        rw [hframe j hjne]
        apply hemp j hj
        intro k ck hk hak hckn
        exact hnone k ck (by omega) hak hckn

/-- Claim C5, amended.  For an array of perfect-square length s·s with
s ≤ 2²⁴ (below that bound the f32 cast/sqrt/truncate size inference is
exact, ruling out the second counterexample) in which every non-empty
entry's mapped coordinate has Zobrist row x·19 + y below 19·19 (ruling out
the panic of the first counterexample; any board size at most 19 satisfies
this for every index), from_array returns a board of size s whose cell at
the coordinate derived from index k through the order-configured mapper
holds the array's k-th color, and whose remaining cells are empty. -/
theorem c5_from_array_sound {arr : List Color} {order : Order} {s : Nat}
    (hlen : arr.length = s * s) (hs : s ≤ 2 ^ 24)
    (hsafe : ∀ k, k < s * s →
      getAt arr k = some Color.none ∨
        ((CoordUtil.newOrder s s order).fromIndex k).1 * 19 +
          ((CoordUtil.newOrder s s order).fromIndex k).2 < 19 * 19) :
    ∃ g, Goban.from_array arr order = some g ∧ g.size = s ∧
      (∀ k c, getAt arr k = some c → ¬ c = Color.none →
        getAt g.tab (sigmaIdx s order k) = some c) ∧
      (∀ j, j < s * s →
        (∀ k c, getAt arr k = some c → ¬ c = Color.none → ¬ sigmaIdx s order k = j) →
        getAt g.tab j = some Color.none) := by
  have hsize : f32SizeOfLen arr.length = s := by
    rw [hlen]
    exact f32SizeOfLen_square hs
  have hform : Goban.from_array arr order =
      from_arrayPush (CoordUtil.newOrder s s order) (Goban.new s)
        (List.enumFrom 0 arr) := by
    show from_arrayPush
      (CoordUtil.newOrder (f32SizeOfLen arr.length) (f32SizeOfLen arr.length) order)
      (Goban.new (f32SizeOfLen arr.length)) (List.enumFrom 0 arr) = _
    rw [hsize]
  rw [hform]
  have hinv0 : BuildInv s order arr 0 (Goban.new s) := by
    refine ⟨rfl, rfl, rfl, by simp [Goban.new], by simp [Goban.new],
      by simp [Goban.new], ?_, ?_⟩
    · intro k ck hk _ _
      exact absurd hk (Nat.not_lt_zero k)
    · intro j hj _
      show getAt (List.replicate (s * s) Color.none) j = some Color.none
      exact getAt_replicate hj
  obtain ⟨g', hrun, hfin⟩ := from_arrayPush_inv hsafe arr 0 (Goban.new s)
    (fun j => by rw [Nat.zero_add]) (by rw [Nat.zero_add, hlen]) hinv0
  obtain ⟨hsz', _, _, _, _, _, hocc, hemp⟩ := hfin
  refine ⟨g', hrun, hsz', ?_, ?_⟩
  · intro k ck hak hckn
    have hklt : k < arr.length := getAt_lt hak
    rw [hlen] at hklt
    exact hocc k ck hklt hak hckn
  · intro j hj hnone
    exact hemp j hj (fun k ck _ hak hckn => hnone k ck hak hckn)

theorem c5Arr_len : c5Arr.length = 20 * 20 := by
  simp [c5Arr]

theorem c5Arr_size : f32SizeOfLen c5Arr.length = 20 := by
  rw [c5Arr_len]
  decide

theorem c5Arr_none : Goban.from_array c5Arr Order.columnMajor = Option.none := by
  have hform : Goban.from_array c5Arr Order.columnMajor =
      from_arrayPush (CoordUtil.newOrder 20 20 Order.columnMajor) (Goban.new 20)
        (List.enumFrom 0 c5Arr) := by
    show from_arrayPush
      (CoordUtil.newOrder (f32SizeOfLen c5Arr.length) (f32SizeOfLen c5Arr.length)
        Order.columnMajor)
      (Goban.new (f32SizeOfLen c5Arr.length)) (List.enumFrom 0 c5Arr) = _
    rw [c5Arr_size]
  rw [hform]
  have hskip : from_arrayPush (CoordUtil.newOrder 20 20 Order.columnMajor) (Goban.new 20)
      (List.enumFrom 0 c5Arr) =
      from_arrayPush (CoordUtil.newOrder 20 20 Order.columnMajor) (Goban.new 20)
        (List.enumFrom (0 + 19) (Color.black :: List.replicate 380 Color.none)) := by
    show from_arrayPush (CoordUtil.newOrder 20 20 Order.columnMajor) (Goban.new 20)
      (List.enumFrom 0 (List.replicate 19 Color.none ++
        Color.black :: List.replicate 380 Color.none)) = _
    exact from_arrayPush_skip_replicate _ 19 _ 0 _
  rw [hskip]
  have hpanic : (Goban.new 20).push
      ((CoordUtil.newOrder 20 20 Order.columnMajor).fromIndex 19) Color.black =
      PushOut.panicked := by
    apply push_panicked_of_lookup_none
    · decide
    · decide
    · show (Goban.new 20).coordUtil.toIndex (19, 0) < (List.replicate 400 false).length
      rw [List.length_replicate]
      decide
    · show (Goban.new 20).coordUtil.toIndex (19, 0) < (List.replicate 400 false).length
      rw [List.length_replicate]
      decide
    · show zobristLookup ZOBRIST19 (19, 0) Color.black = Option.none
      apply lookup_none_of_ge
      rw [zobrist19_len, zobrist19_n]
      decide
  show from_arrayPush (CoordUtil.newOrder 20 20 Order.columnMajor) (Goban.new 20)
    ((19, Color.black) :: List.enumFrom 20 (List.replicate 380 Color.none)) = _
  exact from_arrayPush_cons_panic (by decide) hpanic

theorem c5Big_len : c5BigArr.length = 16777217 * 16777217 := by
  show (List.replicate (16777217 * 16777217) Color.none).length = 16777217 * 16777217
  exact List.length_replicate _ _

set_option maxRecDepth 100000 in
theorem c5Big_size : f32SizeOfLen c5BigArr.length = 16777216 := by
  rw [c5Big_len]
  decide

theorem c5Big_run : Goban.from_array c5BigArr Order.rowMajor =
    some (Goban.new 16777216) := by
  have hform : Goban.from_array c5BigArr Order.rowMajor =
      from_arrayPush (CoordUtil.newOrder 16777216 16777216 Order.rowMajor)
        (Goban.new 16777216) (List.enumFrom 0 c5BigArr) := by
    show from_arrayPush
      (CoordUtil.newOrder (f32SizeOfLen c5BigArr.length) (f32SizeOfLen c5BigArr.length)
        Order.rowMajor)
      (Goban.new (f32SizeOfLen c5BigArr.length)) (List.enumFrom 0 c5BigArr) = _
    rw [c5Big_size]
  rw [hform]
  have h := from_arrayPush_skip_replicate
    (CoordUtil.newOrder 16777216 16777216 Order.rowMajor) (16777217 * 16777217)
    (Goban.new 16777216) 0 []
  rw [List.append_nil] at h
  show from_arrayPush (CoordUtil.newOrder 16777216 16777216 Order.rowMajor)
    (Goban.new 16777216)
    (List.enumFrom 0 (List.replicate (16777217 * 16777217) Color.none)) = _
  rw [h]
  rfl

/-- Claim C5, counterexample, two independent failures of the universally
quantified statement.  First, a 20×20 perfect-square array with one Black
stone at flat index 19 read column-major: the mapper sends 19 to coordinate
(19, 0), whose Zobrist row 19·19 = 361 lies outside the fixed 361-row
table, so the push inside from_array panics and no board is returned.
Second, an all-empty array of perfect-square length 16777217² = (2²⁴+1)²:
the f32 cast of the length rounds, and the truncated float square root
yields a board of size 16777216 rather than 16777217. -/
theorem c5_from_array_counterexample :
    (c5Arr.length = 20 * 20 ∧ Goban.from_array c5Arr Order.columnMajor = Option.none) ∧
    (c5BigArr.length = 16777217 * 16777217 ∧
      (Goban.from_array c5BigArr Order.rowMajor).map Goban.size = some 16777216 ∧
      ¬ (Goban.from_array c5BigArr Order.rowMajor).map Goban.size = some 16777217) := by
  refine ⟨⟨c5Arr_len, c5Arr_none⟩, c5Big_len, ?_, ?_⟩
  · rw [c5Big_run]
    rfl
  · rw [c5Big_run]
    decide

/-- C5 witness: the amended theorem applied to the concrete 2×2 array
[Black, None, None, White] read row-major, with all three hypotheses
discharged by evaluation. -/
theorem c5_from_array_sound_witness :
    waArr.length = 2 * 2 ∧ (2 : Nat) ≤ 2 ^ 24 ∧
    (∀ k, k < 2 * 2 →
      getAt waArr k = some Color.none ∨
        ((CoordUtil.newOrder 2 2 Order.rowMajor).fromIndex k).1 * 19 +
          ((CoordUtil.newOrder 2 2 Order.rowMajor).fromIndex k).2 < 19 * 19) ∧
    (∃ g, Goban.from_array waArr Order.rowMajor = some g ∧ g.size = 2 ∧
      (∀ k c, getAt waArr k = some c → ¬ c = Color.none →
        getAt g.tab (sigmaIdx 2 Order.rowMajor k) = some c) ∧
      (∀ j, j < 2 * 2 →
        (∀ k c, getAt waArr k = some c → ¬ c = Color.none →
          ¬ sigmaIdx 2 Order.rowMajor k = j) →
        getAt g.tab j = some Color.none)) :=
  ⟨rfl, by decide, by decide, c5_from_array_sound rfl (by decide) (by decide)⟩
